import Mathlib

/-
Verification of the att-bill-splitter repository.

The development shallowly embeds the bill-splitting logic of
src/attbillsplitter/main.py (class AttBillSpliter, method
split_previous_bill) and the reporting and notification logic of
src/attbillsplitter/services.py.  Monetary amounts are modelled as
rationals, the database as explicit lists of rows, and the web page as a
record carrying the text blocks the code reads through selenium.
-/

namespace AttBill

/-- Amounts are rationals; Python floats on bill-sized values behave as
exact decimals for the purposes of these claims. -/
abbrev Amt := ℚ

/-- Test for the regex character class [0-9.] used in the amount group of
the pattern in main.py. -/
def isAmtChar (c : Char) : Bool := c.isDigit || c == '.'

/-- Maximal run of [0-9.] characters: the greedy capture ([0-9.]+). -/
def takeAmt : List Char → List Char
  | [] => []
  | c :: cs => if isAmtChar c then c :: takeAmt cs else []

/-- Test whether a list of characters begins with an amount character. -/
def headIsAmt : List Char → Bool
  | [] => false
  | c :: _ => isAmtChar c

/-- Scan for the first dollar sign that is immediately followed by an
amount character and return the greedy capture after it.  This is the lazy
tail .*?\$([0-9.]+) of the regex used in main.py. -/
def findDollarAmt : List Char → Option (List Char)
  | [] => none
  | c :: cs =>
      if c == '$' && headIsAmt cs then some (takeAmt cs)
      else findDollarAmt cs

/-- Boolean prefix test on character lists (pattern first). -/
def startsWithChars : List Char → List Char → Bool
  | [], _ => true
  | _ :: _, [] => false
  | a :: as, b :: bs => a == b && startsWithChars as bs

/-- Embedding of re.search(anchor ++ .*?\$([0-9.]+), text, DOTALL) for a
literal anchor: the leftmost occurrence of the anchor that is followed
(anywhere later, newlines included) by a dollar amount wins, and the first
dollar amount after that occurrence is captured. -/
def searchAnchor (anchor : List Char) : List Char → Option (List Char)
  | [] => none
  | c :: cs =>
      if startsWithChars anchor (c :: cs) then
        match findDollarAmt ((c :: cs).drop anchor.length) with
        | some g => some g
        | none => searchAnchor anchor cs
      else searchAnchor anchor cs

/-- Numeric value of a digit list read in base ten. -/
def digitsVal (ds : List Char) : ℕ :=
  ds.foldl (fun a c => 10 * a + (c.toNat - 48)) 0

/-- Value of a token consisting of digits with at most one dot, as
computed by the Python float constructor. -/
def amtValue (t : List Char) : Amt :=
  let intPart := t.takeWhile (fun c => c ≠ '.')
  let fracPart := (t.dropWhile (fun c => c ≠ '.')).drop 1
  (digitsVal intPart : Amt) + (digitsVal fracPart : Amt) / ((10 : Amt) ^ fracPart.length)

/-- Embedding of the Python float constructor on a captured [0-9.]+ token:
it succeeds exactly on tokens holding at least one digit and at most one
dot, and raises ValueError otherwise. -/
def parseAmt (t : List Char) : Option Amt :=
  if t.all isAmtChar && t.any Char.isDigit && (t.count '.' ≤ 1 : Bool) then
    some (amtValue t)
  else none

/-- Anchor string used by the total-amount search of main.py: the literal
text Total followed by a space and the (canonicalized) label. -/
def anchorChars (label : String) : List Char :=
  ("Total " ++ label).toList

/-- Search an item body for the first Total-label anchor followed by a
dollar amount and return the captured token (m.group(1) in main.py).  A
none result is the case where re.search returns None and the subsequent
m.group(1) call fails.  The label is interpolated into the pattern
un-escaped, so this literal-anchor search embeds re.search exactly for
labels free of regex metacharacters; regexSearchAnchor below extends the
embedding to labels carrying the dot metacharacter. -/
def extractTotal (label body : String) : Option (List Char) :=
  searchAnchor (anchorChars label) body.toList

/-- Amount extraction composed with float parsing: the value
float(m.group(1)) computed by main.py. -/
def extractAmount (label body : String) : Option Amt :=
  (extractTotal label body).bind parseAmt

/-- Anchor of the discount search in main.py: the literal text National
Account Discount. -/
def discountAnchor : List Char := "National Account Discount".toList

/-- Search an item body for the National Account Discount amount token. -/
def extractDiscountTok (body : String) : Option (List Char) :=
  searchAnchor discountAnchor body.toList

/-- Embedding of slugify as applied to the ASCII labels of the bill:
lower-case the alphanumeric characters, replace every other character by a
separator, and join the resulting words with dashes. -/
def slugify (s : String) : String :=
  let cleaned := s.toList.map (fun c => if c.isAlphanum then c.toLower else ' ')
  String.intercalate "-" ((cleaned.asString.splitOn " ").filter (fun w => w ≠ ""))

/-- Row of the Charge table.  Users are identified by their natural key
(name, number), charge types by their type code, billing cycles by name. -/
structure ChargeRow where
  userName : String
  userNumber : String
  chargeType : String
  cycle : String
  amount : Amt
deriving DecidableEq, Repr

/-- State of the five tables created by create_tables_if_not_exist, each
stored as a list of rows in insertion order. -/
structure DB where
  users : List (String × String)
  categories : List (String × String)
  chargeTypes : List (String × String × String)
  cycles : List String
  charges : List ChargeRow
deriving DecidableEq, Repr

/-- Embedding of User.get_or_create keyed on (name, number). -/
def getOrCreateUser (db : DB) (name number : String) : DB :=
  if db.users.contains (name, number) then db
  else { db with users := db.users ++ [(name, number)] }

/-- Embedding of ChargeCategory.get_or_create keyed on (category, text). -/
def getOrCreateCategory (db : DB) (cat text : String) : DB :=
  if db.categories.contains (cat, text) then db
  else { db with categories := db.categories ++ [(cat, text)] }

/-- Embedding of ChargeType.get_or_create keyed on (type, text, category). -/
def getOrCreateType (db : DB) (ty text cat : String) : DB :=
  if db.chargeTypes.contains (ty, text, cat) then db
  else { db with chargeTypes := db.chargeTypes ++ [(ty, text, cat)] }

/-- Test whether two charge rows agree on the unique triple
(user, charge_type, billing_cycle). -/
def sameTriple (a b : ChargeRow) : Bool :=
  a.userName == b.userName && a.userNumber == b.userNumber &&
    a.chargeType == b.chargeType && a.cycle == b.cycle

/-- Embedding of Charge(...).save(): a none result is the IntegrityError
raised by the uniqueness constraint on (user, charge_type, billing_cycle),
surfaced to callers as the DuplicateChargeError of the design. -/
def insertCharge (db : DB) (c : ChargeRow) : Option DB :=
  if db.charges.any (fun c0 => sameTriple c0 c) then none
  else some { db with charges := db.charges ++ [c] }

/-- Charge save wrapped in the try/except IntegrityError of main.py: a
duplicate is logged as a warning and the store is left unchanged. -/
def saveChargeLogged (db : DB) (c : ChargeRow) : DB :=
  match insertCharge db c with
  | none => db
  | some db2 => db2

/-- Failure modes of split_previous_bill.  extractionFailure is the
AttributeError raised by m.group(1) when re.search found no match,
badAmount the ValueError of float on a malformed token, unsetDiscount and
unsetOffset the NameErrors on w_act_m_disc and offset when they are read
before any assignment, and calcError the CalculationError of the
reconciliation check. -/
inductive SplitErr
  | extractionFailure
  | badAmount
  | unsetDiscount
  | unsetOffset
  | calcError
deriving DecidableEq, Repr

/-- Text block of one charge line item: the heading text of its first
child div and the full text of the element. -/
structure LineItem where
  label : String
  body : String
deriving DecidableEq, Repr

/-- Phonebook entry together with the charge blocks the page holds for
that line. -/
structure PageUser where
  name : String
  number : String
  items : List LineItem
deriving DecidableEq, Repr

/-- Content of one rendered bill page as read by split_previous_bill: the
heading carrying the cycle name, the U-verse TV and Internet blocks, the
phonebook with the per-line wireless blocks (holder first, as
settings.phonebook[0]), and the printed wireless total. -/
structure Page where
  newChargeTitle : String
  utvItems : List LineItem
  uviItems : List LineItem
  holder : PageUser
  others : List PageUser
  billWirelessTotal : Amt
deriving DecidableEq, Repr

/-- Embedding of the Python str.startswith test, written over character
lists so that it evaluates structurally. -/
def strStartsWith (s pre : String) : Bool := startsWithChars pre.toList s.toList

/-- Label canonicalization of main.py: any label starting with the text
Monthly Charges is collapsed to the literal Monthly Charges. -/
def canonLabel (s : String) : String :=
  if strStartsWith s "Monthly Charges" then "Monthly Charges" else s

/-- Fixed monthly charge for the wireless account (w_act_m = 130). -/
def wActM : Amt := 130

/-- Processing of one U-verse TV or Internet line item: canonicalize the
label, extract the total amount, create the charge type, and save a charge
for the account holder.  Errors abort before any write of the item. -/
def processSimpleItem (cat cycle : String) (holder : String × String) (db : DB)
    (it : LineItem) : Except SplitErr DB :=
  match extractTotal (canonLabel it.label) it.body with
  | none => Except.error SplitErr.extractionFailure
  | some tok =>
      match parseAmt tok with
      | none => Except.error SplitErr.badAmount
      | some v =>
          Except.ok (saveChargeLogged
            (getOrCreateType db (slugify (canonLabel it.label)) (canonLabel it.label) cat)
            ⟨holder.1, holder.2, slugify (canonLabel it.label), cycle, v⟩)

/-- Loop over the U-verse TV or Internet items.  An exception propagates
with the store as it was before the offending item. -/
def processSimpleItems (cat cycle : String) (holder : String × String) :
    List LineItem → DB → DB × Option SplitErr
  | [], db => (db, none)
  | it :: rest, db =>
      match processSimpleItem cat cycle holder db it with
      | Except.error e => (db, some e)
      | Except.ok db2 => processSimpleItems cat cycle holder rest db2

/-- Mutable locals of the account-holder wireless loop: the store, the
w_act_m_disc variable and the offset variable, where none models a Python
variable that has not been assigned yet. -/
structure WSt where
  db : DB
  disc : Option Amt
  offset : Option Amt
deriving DecidableEq, Repr

/-- Tail of one account-holder wireless iteration once the label and the
updated discount and offset are known: extract the total, create the type,
save the charge with the offset subtracted, and record the new values of
the two loop variables. -/
def holderItemTail (cycle : String) (holder : String × String) (db : DB)
    (label body : String) (disc : Option Amt) (offset : Amt) : Except SplitErr WSt :=
  match extractTotal label body with
  | none => Except.error SplitErr.extractionFailure
  | some tok =>
      match parseAmt tok with
      | none => Except.error SplitErr.badAmount
      | some v =>
          Except.ok ⟨saveChargeLogged (getOrCreateType db (slugify label) label "wireless")
            ⟨holder.1, holder.2, slugify label, cycle, v - offset⟩, disc, some offset⟩

/-- Processing of one wireless line item of the account holder.  The
offset local is reset to zero at the top of the iteration; for a monthly
charges item the discount is searched in the block text, w_act_m_disc is
updated only when the search matches (a read of the never-assigned
variable raises), and offset becomes wActM minus the discount.  The stored
amount is the extracted total minus offset. -/
def processHolderItem (cycle : String) (holder : String × String) (st : WSt)
    (it : LineItem) : Except SplitErr WSt :=
  if strStartsWith it.label "Monthly Charges" then
    match extractDiscountTok it.body with
    | some tok =>
        match parseAmt tok with
        | none => Except.error SplitErr.badAmount
        | some d =>
            holderItemTail cycle holder st.db "Monthly Charges" it.body (some d) (wActM - d)
    | none =>
        match st.disc with
        | none => Except.error SplitErr.unsetDiscount
        | some d =>
            holderItemTail cycle holder st.db "Monthly Charges" it.body (some d) (wActM - d)
  else holderItemTail cycle holder st.db it.label it.body st.disc 0

/-- Loop over the account-holder wireless items. -/
def processHolderItems (cycle : String) (holder : String × String) :
    List LineItem → WSt → WSt × Option SplitErr
  | [], st => (st, none)
  | it :: rest, st =>
      match processHolderItem cycle holder st it with
      | Except.error e => (st, some e)
      | Except.ok st2 => processHolderItems cycle holder rest st2

/-- Processing of one wireless item of an additional line.  The offset
subtracted is the value the offset variable retained after the account
holder loop (none models the variable never having been assigned), and
charge_total becomes the amount of this item. -/
def processUserItem (cycle : String) (offsetOpt : Option Amt) (u : String × String)
    (db : DB) (it : LineItem) : Except SplitErr (DB × Amt) :=
  match extractTotal (canonLabel it.label) it.body with
  | none => Except.error SplitErr.extractionFailure
  | some tok =>
      match parseAmt tok with
      | none => Except.error SplitErr.badAmount
      | some v =>
          match offsetOpt with
          | none => Except.error SplitErr.unsetOffset
          | some off =>
              Except.ok (saveChargeLogged
                (getOrCreateType db (slugify (canonLabel it.label)) (canonLabel it.label)
                  "wireless")
                ⟨u.1, u.2, slugify (canonLabel it.label), cycle, v - off⟩, v - off)

/-- Loop over the wireless items of one additional line, threading the
charge_total local that starts at zero for the line. -/
def processUserItems (cycle : String) (offsetOpt : Option Amt) (u : String × String) :
    List LineItem → DB → Amt → DB × Amt × Option SplitErr
  | [], db, ct => (db, ct, none)
  | it :: rest, db, ct =>
      match processUserItem cycle offsetOpt u db it with
      | Except.error e => (db, ct, some e)
      | Except.ok (db2, ct2) => processUserItems cycle offsetOpt u rest db2 ct2

/-- Membership-preserving insertion into the users set of the split. -/
def addActive (users : List (String × String)) (u : String × String) :
    List (String × String) :=
  if users.contains u then users else users ++ [u]

/-- Loop over the remaining phonebook entries: entries carrying the account
holder number are skipped, each remaining line gets a User row, its items
are processed, and the line joins the users set exactly when the final
charge_total of its loop is positive. -/
def processUsers (cycle : String) (holderNum : String) (offsetOpt : Option Amt) :
    List PageUser → DB → List (String × String) →
      DB × List (String × String) × Option SplitErr
  | [], db, users => (db, users, none)
  | pu :: rest, db, users =>
      if pu.number == holderNum then
        processUsers cycle holderNum offsetOpt rest db users
      else
        match processUserItems cycle offsetOpt (pu.name, pu.number) pu.items
            (getOrCreateUser db pu.name pu.number) 0 with
        | (db2, _, some e) => (db2, users, some e)
        | (db2, ct, none) =>
            processUsers cycle holderNum offsetOpt rest db2
              (if 0 < ct then addActive users (pu.name, pu.number) else users)

/-- Category of a type code, read through the ChargeType table. -/
def typeCategory (db : DB) (t : String) : Option String :=
  (db.chargeTypes.find? (fun r => r.1 == t)).map (fun r => r.2.2)

/-- Test whether a charge row belongs to the wireless category. -/
def isWirelessCharge (db : DB) (c : ChargeRow) : Bool :=
  typeCategory db c.chargeType == some "wireless"

/-- Aggregate of the user_total query: sum of the wireless charge amounts
of one user in one cycle. -/
def wirelessSum (db : DB) (u : String × String) (cycle : String) : Amt :=
  ((db.charges.filter (fun c =>
      c.userName == u.1 && c.userNumber == u.2 && c.cycle == cycle &&
        isWirelessCharge db c)).map (fun c => c.amount)).sum

/-- Type code of the share charge, as hard-coded in main.py. -/
def shareTypeCode : String := "wireless-acount-monthly-charges-share"

/-- Display text of the share charge type. -/
def shareTypeText : String := "Account Monthly Charges Share"

/-- Share-writing loop of the split: one share charge per member of the
users set; on a duplicate the insert is logged and the running wireless
total skips that user, otherwise the user wireless sum joins the total. -/
def processShares (cycle : String) (share : Amt) :
    List (String × String) → DB → Amt → DB × Amt
  | [], db, total => (db, total)
  | u :: rest, db, total =>
      match insertCharge (getOrCreateType db shareTypeCode shareTypeText "wireless")
          ⟨u.1, u.2, shareTypeCode, cycle, share⟩ with
      | none =>
          processShares cycle share rest
            (getOrCreateType db shareTypeCode shareTypeText "wireless") total
      | some db2 => processShares cycle share rest db2 (total + wirelessSum db2 u cycle)

/-- Billing cycle name: the heading text with the sixteen characters of
the leading New charges for text removed. -/
def cycleNameOf (p : Page) : String := p.newChargeTitle.drop 16

/-- Everything split_previous_bill does after the idempotency guard and
before the reconciliation comparison: create the cycle, process the
U-verse TV, U-verse Internet and wireless blocks, and write the share
charges, returning the store, the computed wireless total and the first
exception if one was raised. -/
def preReconcile (p : Page) (db0 : DB) : DB × Amt × Option SplitErr :=
  match processSimpleItems "utv" (cycleNameOf p) (p.holder.name, p.holder.number) p.utvItems
      (getOrCreateCategory { db0 with cycles := db0.cycles ++ [cycleNameOf p] }
        "utv" "U-verse TV") with
  | (db, some e) => (db, 0, some e)
  | (db3, none) =>
    match processSimpleItems "uvi" (cycleNameOf p) (p.holder.name, p.holder.number) p.uviItems
        (getOrCreateCategory db3 "uvi" "U-verse Internet") with
    | (db, some e) => (db, 0, some e)
    | (db5, none) =>
      match processHolderItems (cycleNameOf p) (p.holder.name, p.holder.number) p.holder.items
          ⟨getOrCreateCategory db5 "wireless" "Wireless", none, none⟩ with
      | (st, some e) => (st.db, 0, some e)
      | (st, none) =>
        match processUsers (cycleNameOf p) p.holder.number st.offset p.others st.db
            [(p.holder.name, p.holder.number)] with
        | (db, _, some e) => (db, 0, some e)
        | (db7, users, none) =>
          match st.disc with
          | none => (db7, 0, some SplitErr.unsetDiscount)
          | some d =>
            match processShares (cycleNameOf p) ((wActM - d) / (users.length : Amt))
                users db7 0 with
            | (db8, wtotal) => (db8, wtotal, none)

/-- Embedding of split_previous_bill: return unchanged when the cycle name
is already present, otherwise run the split and compare the computed
wireless total against the printed one with tolerance 0.01. -/
def split (p : Page) (db0 : DB) : DB × Option SplitErr :=
  if db0.cycles.contains (cycleNameOf p) then (db0, none)
  else
    match preReconcile p db0 with
    | (db, _, some e) => (db, some e)
    | (db, wtotal, none) =>
        if 1 / 100 < |p.billWirelessTotal - wtotal| then (db, some SplitErr.calcError)
        else (db, none)

/-- Empty store, the state right after create_tables_if_not_exist on a
fresh database. -/
def emptyDB : DB := ⟨[], [], [], [], []⟩

/-- Page for which the additional line has a positive wireless total but a
zero amount on its last line item. -/
def pageLastZero : Page :=
  { newChargeTitle := "New charges for 2016-01"
  , utvItems := []
  , uviItems := []
  , holder := { name := "Alice", number := "111"
              , items := [ { label := "Monthly Charges - Jan"
                           , body := "National Account Discount -$20.00 Total Monthly Charges $130.00" }
                         , { label := "Surcharges"
                           , body := "Total Surcharges $0" } ] }
  , others := [ { name := "Bob", number := "222"
                , items := [ { label := "Plan", body := "Total Plan $50.00" }
                           , { label := "Fees", body := "Total Fees $0" } ] } ]
  , billWirelessTotal := 130 }

/-- Page whose account-holder block ends with the monthly-charges item, so
the offset variable still holds 110 when the additional line is parsed. -/
def pageLeak : Page :=
  { newChargeTitle := "New charges for 2016-02"
  , utvItems := []
  , uviItems := []
  , holder := { name := "Alice", number := "111"
              , items := [ { label := "Monthly Charges - Feb"
                           , body := "National Account Discount -$20.00 Total Monthly Charges $130.00" } ] }
  , others := [ { name := "Bob", number := "222"
                , items := [ { label := "Plan", body := "Total Plan $45.00" } ] } ]
  , billWirelessTotal := 130 }

/-- Claim C7: a split invocation whose billing-cycle display name matches
an already stored BillingCycle writes nothing to any table and returns
without raising an error. -/
theorem split_skips_existing_cycle (p : Page) (db : DB)
    (h : db.cycles.contains (cycleNameOf p) = true) : split p db = (db, none) := by
  unfold split
  rw [h]
  rfl

/-- Witness for split_skips_existing_cycle on a store already holding the
cycle named by the page heading. -/
theorem split_skips_existing_cycle_witness :
    split { newChargeTitle := "New charges for 2016-03", utvItems := [], uviItems := []
          , holder := ⟨"Alice", "111", []⟩, others := [], billWirelessTotal := 0 }
        ⟨[], [], [], ["2016-03"], []⟩ =
      (⟨[], [], [], ["2016-03"], []⟩, none) :=
  split_skips_existing_cycle _ _ (by decide)

/-- Claim C2: evaluation of the split on pageLeak.  The amount extracted
from the additional line item is 45, yet the stored charge amount is
minus 65: the offset left over from the account-holder loop is subtracted
from an item of an additional line, while the claim requires the stored
amount of every non-monthly item to equal the extracted amount. -/
theorem offset_leaks_into_additional_line_charges :
    extractAmount (canonLabel "Plan") "Total Plan $45.00" = some 45 ∧
    (⟨"Bob", "222", "plan", "2016-02", -65⟩ : ChargeRow) ∈ (split pageLeak emptyDB).1.charges ∧
    (⟨"Bob", "222", "plan", "2016-02", 45⟩ : ChargeRow) ∉ (split pageLeak emptyDB).1.charges := by
  with_unfolding_all decide

/-- Claim C1, counterexample: on pageLastZero the split finishes without
error, the line of Bob has wireless charges totalling 50, which is
positive, yet Bob receives no share charge, and the share written for the
account holder is 110, the pooled fee net of discount divided by one, so
the denominator did not count Bob. -/
theorem positive_total_line_excluded_from_denominator :
    (split pageLastZero emptyDB).2 = none ∧
    0 < wirelessSum (split pageLastZero emptyDB).1 ("Bob", "222") "2016-01" ∧
    ((split pageLastZero emptyDB).1.charges.filter
        (fun c => c.userNumber == "222" && c.chargeType == shareTypeCode)) = [] ∧
    (⟨"Alice", "111", shareTypeCode, "2016-01", 110⟩ : ChargeRow) ∈
      (split pageLastZero emptyDB).1.charges := by
  with_unfolding_all decide

/-- Amount the charge_total variable takes after one additional-line item:
the extracted total of the item minus the leftover offset. -/
def itemAmount (off : Amt) (it : LineItem) : Option Amt :=
  ((extractTotal (canonLabel it.label) it.body).bind parseAmt).map (fun v => v - off)

/-- Value of the charge_total variable after the item loop of an
additional line: zero when the line has no items, otherwise the amount of
the last item. -/
def lastItemAmount (off : Amt) (items : List LineItem) : Amt :=
  (items.getLast?.map (fun it => (itemAmount off it).getD 0)).getD 0

/-- Successful processing of one additional-line item yields exactly its
item amount as the new charge_total. -/
theorem processUserItem_ok {cycle : String} {off : Amt} {u : String × String}
    {db : DB} {it : LineItem} {db2 : DB} {ct : Amt}
    (h : processUserItem cycle (some off) u db it = Except.ok (db2, ct)) :
    itemAmount off it = some ct := by
  unfold processUserItem at h
  unfold itemAmount
  split at h
  · simp at h
  · rename_i tok hx
    split at h
    · simp at h
    · rename_i v hp
      simp only [Except.ok.injEq, Prod.mk.injEq] at h
      rw [hx]
      simp [hp, h.2]

/-- Final charge_total of the item loop of one additional line, in terms
of the last item of the list. -/
theorem processUserItems_ct (cycle : String) (off : Amt) (u : String × String)
    (items : List LineItem) :
    ∀ (db : DB) (ct : Amt) (db2 : DB) (ct2 : Amt),
      processUserItems cycle (some off) u items db ct = (db2, ct2, none) →
      ct2 = (items.getLast?.map (fun it => (itemAmount off it).getD 0)).getD ct := by
  induction items with
  | nil =>
      intro db ct db2 ct2 h
      simp only [processUserItems, Prod.mk.injEq] at h
      simp [h.2.1]
  | cons it rest ih =>
      intro db ct db2 ct2 h
      rw [processUserItems] at h
      cases hstep : processUserItem cycle (some off) u db it with
      | error e => rw [hstep] at h; simp at h
      | ok pr =>
          obtain ⟨dbx, ctx⟩ := pr
          rw [hstep] at h
          have hlast := ih dbx ctx db2 ct2 h
          have hok := processUserItem_ok hstep
          cases rest with
          | nil => simp [hlast, hok]
          | cons r rs =>
              rw [List.getLast?_cons_cons]
              simpa using hlast

/-- Membership in the users set after an add. -/
theorem mem_addActive (users : List (String × String)) (u v : String × String) :
    v ∈ addActive users u ↔ v ∈ users ∨ v = u := by
  unfold addActive
  split
  next h =>
      have hu : u ∈ users := by simpa using h
      constructor
      · exact fun hv => Or.inl hv
      · rintro (hv | rfl)
        · exact hv
        · exact hu
  next h => simp

/-- Claim C1, amended: after an error-free pass over the additional lines,
a pair belongs to the users set if and only if it was there already (the
account holder is seeded into the set unconditionally) or it is a
configured line, distinct from the account holder number, whose last line
item carries a positive amount; the total of the line over all its items
plays no role. -/
theorem active_users_characterization (cycle holderNum : String) (off : Amt)
    (pus : List PageUser) (db : DB) (users0 : List (String × String))
    (h : (processUsers cycle holderNum (some off) pus db users0).2.2 = none)
    (u : String × String) :
    u ∈ (processUsers cycle holderNum (some off) pus db users0).2.1 ↔
      u ∈ users0 ∨ ∃ pu ∈ pus, pu.number ≠ holderNum ∧ u = (pu.name, pu.number) ∧
        0 < lastItemAmount off pu.items := by
  induction pus generalizing db users0 with
  | nil => simp [processUsers]
  | cons pu rest ih =>
      rw [processUsers] at h ⊢
      by_cases hn : pu.number == holderNum
      · rw [if_pos hn] at h ⊢
        have hne : pu.number = holderNum := by simpa using hn
        rw [ih db users0 h]
        simp [hne]
      · rw [if_neg hn] at h ⊢
        have hne : ¬ pu.number = holderNum := by simpa using hn
        cases hri : processUserItems cycle (some off) (pu.name, pu.number) pu.items
            (getOrCreateUser db pu.name pu.number) 0 with
        | mk db2 p2 =>
            obtain ⟨ct, oe⟩ := p2
            cases oe with
            | some e => rw [hri] at h; simp at h
            | none =>
                have hct : ct = lastItemAmount off pu.items := by
                  have hc := processUserItems_ct cycle off (pu.name, pu.number)
                    pu.items (getOrCreateUser db pu.name pu.number) 0 db2 ct hri
                  rw [hc]
                  rfl
                rw [hri] at h
                dsimp only at h ⊢
                rw [ih _ _ h]
                by_cases hpos : (0 : Amt) < ct
                · rw [if_pos hpos]
                  rw [mem_addActive]
                  simp only [List.mem_cons, or_and_right, exists_or, exists_eq_left]
                  constructor
                  · rintro ((h0 | hu) | hr)
                    · exact Or.inl h0
                    · exact Or.inr (Or.inl ⟨hne, hu, hct ▸ hpos⟩)
                    · exact Or.inr (Or.inr hr)
                  · rintro (h0 | (⟨_, hu, _⟩ | hr))
                    · exact Or.inl (Or.inl h0)
                    · exact Or.inl (Or.inr hu)
                    · exact Or.inr hr
                · rw [if_neg hpos]
                  simp only [List.mem_cons, or_and_right, exists_or, exists_eq_left]
                  constructor
                  · rintro (h0 | hr)
                    · exact Or.inl h0
                    · exact Or.inr (Or.inr hr)
                  · rintro (h0 | (⟨_, _, hlp⟩ | hr))
                    · exact Or.inl h0
                    · exact absurd (hct ▸ hlp) hpos
                    · exact Or.inr hr

/-- Witness for active_users_characterization at the additional lines of
pageLastZero: the line of Bob is not in the users set because its last
item amount is zero. -/
theorem active_users_characterization_witness :
    (("Bob", "222") ∈
        (processUsers "2016-01" "111" (some 0) pageLastZero.others emptyDB
          [("Alice", "111")]).2.1) ↔
      (("Bob", "222") ∈ [(("Alice" : String), ("111" : String))] ∨
        ∃ pu ∈ pageLastZero.others, pu.number ≠ "111" ∧
          ("Bob", "222") = (pu.name, pu.number) ∧ 0 < lastItemAmount 0 pu.items) :=
  active_users_characterization "2016-01" "111" 0 pageLastZero.others emptyDB
    [("Alice", "111")] (by with_unfolding_all decide) ("Bob", "222")

/-- Tail of a holder iteration keeps exactly the discount value it was
handed. -/
theorem holderItemTail_disc {cycle : String} {holder : String × String} {db : DB}
    {label body : String} {disc : Option Amt} {offset : Amt} {st2 : WSt}
    (h : holderItemTail cycle holder db label body disc offset = Except.ok st2) :
    st2.disc = disc := by
  unfold holderItemTail at h
  split at h
  · simp at h
  · split at h
    · simp at h
    · simp only [Except.ok.injEq] at h
      rw [← h]

/-- One holder iteration on an item from which no discount is extracted
leaves an unset w_act_m_disc unset when it succeeds. -/
theorem processHolderItem_disc_none {cycle : String} {holder : String × String}
    {st : WSt} {it : LineItem} {st2 : WSt}
    (hnd : strStartsWith it.label "Monthly Charges" = true → extractDiscountTok it.body = none)
    (hdisc : st.disc = none)
    (h : processHolderItem cycle holder st it = Except.ok st2) :
    st2.disc = none := by
  unfold processHolderItem at h
  by_cases hmc : strStartsWith it.label "Monthly Charges" = true
  · rw [if_pos hmc, hnd hmc, hdisc] at h
    simp at h
  · rw [if_neg hmc] at h
    exact (holderItemTail_disc h).trans hdisc

/-- Step equation of the holder loop on a nonempty item list. -/
theorem processHolderItems_cons (cycle : String) (holder : String × String)
    (it : LineItem) (rest : List LineItem) (st : WSt) :
    processHolderItems cycle holder (it :: rest) st =
      match processHolderItem cycle holder st it with
      | Except.error e => (st, some e)
      | Except.ok st2 => processHolderItems cycle holder rest st2 := by
  rw [processHolderItems]

/-- The holder loop never sets w_act_m_disc when no item of the block
yields a National Account Discount match. -/
theorem processHolderItems_disc_none (cycle : String) (holder : String × String) :
    ∀ (items : List LineItem) (st : WSt),
      st.disc = none →
      (∀ it ∈ items, strStartsWith it.label "Monthly Charges" = true →
        extractDiscountTok it.body = none) →
      (processHolderItems cycle holder items st).1.disc = none := by
  intro items
  induction items with
  | nil =>
      intro st h1 _
      exact h1
  | cons it rest ih =>
      intro st h1 h2
      cases hstep : processHolderItem cycle holder st it with
      | error e =>
          rw [processHolderItems_cons, hstep]
          exact h1
      | ok st2 =>
          have hd2 : st2.disc = none :=
            processHolderItem_disc_none (h2 it (by simp)) h1 hstep
          rw [processHolderItems_cons, hstep]
          exact ih st2 hd2 (fun x hx => h2 x (by simp [hx]))

/-- When no account-holder item yields a discount match, the split raises
before the share phase: the result of preReconcile always carries an
error. -/
theorem preReconcile_some_of_no_discount (p : Page) (db0 : DB)
    (hnd : ∀ it ∈ p.holder.items, strStartsWith it.label "Monthly Charges" = true →
      extractDiscountTok it.body = none) :
    (preReconcile p db0).2.2.isSome = true := by
  unfold preReconcile
  split
  next => rfl
  next db3 hutv =>
    split
    next => rfl
    next db5 huvi =>
      split
      next => rfl
      next st hst =>
        split
        next => rfl
        next db7 users husers =>
          split
          next => rfl
          next d hd =>
            exfalso
            have hdn := processHolderItems_disc_none (cycleNameOf p)
              (p.holder.name, p.holder.number) p.holder.items
              ⟨getOrCreateCategory db5 "wireless" "Wireless", none, none⟩ rfl hnd
            rw [hst] at hdn
            simp only at hdn
            rw [hd] at hdn
            exact absurd hdn (by simp)

/-- Claim C3: whenever no National Account Discount amount is extracted
from the account-holder wireless block, the discount variable stays unset
through the whole holder loop, and a split on a fresh cycle fails with an
error instead of proceeding with a zero discount into the offset or the
pooled-share computation. -/
theorem unset_discount_fails_loudly (p : Page) (db0 : DB)
    (hfresh : db0.cycles.contains (cycleNameOf p) = false)
    (hnd : ∀ it ∈ p.holder.items, strStartsWith it.label "Monthly Charges" = true →
      extractDiscountTok it.body = none) :
    (∀ db : DB,
      (processHolderItems (cycleNameOf p) (p.holder.name, p.holder.number) p.holder.items
        ⟨db, none, none⟩).1.disc = none) ∧
    (split p db0).2.isSome = true := by
  refine ⟨fun db => processHolderItems_disc_none _ _ _ _ rfl hnd, ?_⟩
  unfold split
  rw [if_neg (by rw [hfresh]; simp)]
  have hip := preReconcile_some_of_no_discount p db0 hnd
  cases hpre : preReconcile p db0 with
  | mk db1 pr =>
      obtain ⟨wt, oe⟩ := pr
      cases oe with
      | none =>
          rw [hpre] at hip
          exact absurd hip (by simp)
      | some e => rfl

/-- Page whose monthly-charges block carries no National Account Discount
line. -/
def pageNoDiscount : Page :=
  { newChargeTitle := "New charges for 2016-04"
  , utvItems := []
  , uviItems := []
  , holder := { name := "Alice", number := "111"
              , items := [ { label := "Monthly Charges - Apr"
                           , body := "Total Monthly Charges $130.00" } ] }
  , others := []
  , billWirelessTotal := 130 }

/-- Witness for unset_discount_fails_loudly on pageNoDiscount over an
empty store. -/
theorem unset_discount_fails_loudly_witness :
    (∀ db : DB,
      (processHolderItems (cycleNameOf pageNoDiscount)
        (pageNoDiscount.holder.name, pageNoDiscount.holder.number)
        pageNoDiscount.holder.items ⟨db, none, none⟩).1.disc = none) ∧
    (split pageNoDiscount emptyDB).2.isSome = true :=
  unset_discount_fails_loudly pageNoDiscount emptyDB (by decide)
    (by with_unfolding_all decide)

/-- Charge creation on a type keeps the Charge table unchanged. -/
theorem getOrCreateType_charges (db : DB) (ty text cat : String) :
    (getOrCreateType db ty text cat).charges = db.charges := by
  unfold getOrCreateType
  split <;> rfl

/-- User creation keeps the Charge table unchanged. -/
theorem getOrCreateUser_charges (db : DB) (name number : String) :
    (getOrCreateUser db name number).charges = db.charges := by
  unfold getOrCreateUser
  split <;> rfl

/-- Category creation keeps the Charge table unchanged. -/
theorem getOrCreateCategory_charges (db : DB) (cat text : String) :
    (getOrCreateCategory db cat text).charges = db.charges := by
  unfold getOrCreateCategory
  split <;> rfl

/-- Share charge row written for a user in the share phase. -/
def shareRow (cycle : String) (share : Amt) (u : String × String) : ChargeRow :=
  ⟨u.1, u.2, shareTypeCode, cycle, share⟩

/-- Share rows of distinct users never collide on the unique triple. -/
theorem sameTriple_shareRow (cycle : String) (share : Amt) (u v : String × String)
    (h : u ≠ v) :
    sameTriple (shareRow cycle share u) (shareRow cycle share v) = false := by
  unfold sameTriple shareRow
  simp only [beq_self_eq_true, Bool.and_true, Bool.and_eq_false_iff, beq_eq_false_iff_ne,
    ne_eq]
  by_contra hc
  push_neg at hc
  exact h (Prod.ext hc.1 hc.2)

/-- Step equation of the share loop on a nonempty user list. -/
theorem processShares_cons (cycle : String) (share : Amt) (u : String × String)
    (rest : List (String × String)) (db : DB) (t0 : Amt) :
    processShares cycle share (u :: rest) db t0 =
      match insertCharge (getOrCreateType db shareTypeCode shareTypeText "wireless")
          ⟨u.1, u.2, shareTypeCode, cycle, share⟩ with
      | none =>
          processShares cycle share rest
            (getOrCreateType db shareTypeCode shareTypeText "wireless") t0
      | some db2 => processShares cycle share rest db2 (t0 + wirelessSum db2 u cycle) := by
  rw [processShares]

/-- Charges written by the share phase when no user of the list already
has a share row: one appended row per user, in list order. -/
theorem processShares_charges (cycle : String) (share : Amt) :
    ∀ (users : List (String × String)) (db : DB) (t0 : Amt),
      users.Nodup →
      (∀ u ∈ users, ∀ c ∈ db.charges, sameTriple c (shareRow cycle share u) = false) →
      (processShares cycle share users db t0).1.charges =
        db.charges ++ users.map (shareRow cycle share) := by
  intro users
  induction users with
  | nil => intro db t0 _ _; simp [processShares]
  | cons u rest ih =>
      intro db t0 hnd hfree
      have hch : (getOrCreateType db shareTypeCode shareTypeText "wireless").charges
          = db.charges := getOrCreateType_charges db _ _ _
      have hany : ((getOrCreateType db shareTypeCode shareTypeText "wireless").charges.any
          (fun c0 => sameTriple c0 (shareRow cycle share u))) = false := by
        rw [hch, List.any_eq_false]
        intro c hc
        simp [hfree u (by simp) c hc]
      have hins : insertCharge (getOrCreateType db shareTypeCode shareTypeText "wireless")
          (shareRow cycle share u)
          = some { getOrCreateType db shareTypeCode shareTypeText "wireless" with
                   charges := (getOrCreateType db shareTypeCode shareTypeText
                     "wireless").charges ++ [shareRow cycle share u] } := by
        unfold insertCharge
        rw [hany]
        rfl
      rw [processShares_cons]
      rw [show (⟨u.1, u.2, shareTypeCode, cycle, share⟩ : ChargeRow)
        = shareRow cycle share u from rfl]
      rw [hins]
      rw [ih _ _ hnd.of_cons]
      · simp [hch]
      · intro v hv c hc
        simp only [hch] at hc
        rcases List.mem_append.mp hc with hold | hnew
        · exact hfree v (by simp [hv]) c hold
        · rw [List.mem_singleton.mp hnew]
          exact sameTriple_shareRow cycle share u v
            (fun he => (List.nodup_cons.mp hnd).1 (he ▸ hv))

/-- Filter test a share row satisfies exactly for its own user. -/
theorem shareRow_pred (cycle : String) (share : Amt) (u v : String × String) :
    ((shareRow cycle share v).userName == u.1 && (shareRow cycle share v).userNumber == u.2 &&
      (shareRow cycle share v).chargeType == shareTypeCode &&
      (shareRow cycle share v).cycle == cycle)
    = (v.1 == u.1 && v.2 == u.2) := by
  simp [shareRow]

/-- No share row of the list belongs to a user outside the list. -/
theorem filter_shareRows_not_user (cycle : String) (share : Amt) (u : String × String) :
    ∀ (users : List (String × String)), u ∉ users →
      ((users.map (shareRow cycle share)).filter
        (fun c => c.userName == u.1 && c.userNumber == u.2 && c.chargeType == shareTypeCode &&
          c.cycle == cycle)) = [] := by
  intro users
  induction users with
  | nil => intro; rfl
  | cons v rest ih =>
      intro hu
      rw [List.map_cons, List.filter_cons]
      rw [shareRow_pred]
      have hvu : (v.1 == u.1 && v.2 == u.2) = false := by
        have hne : ¬(v.1 = u.1 ∧ v.2 = u.2) := by
          rintro ⟨h1, h2⟩
          exact hu (by simp [← Prod.ext h1 h2])
        rcases not_and_or.mp hne with h1 | h2
        · simp [h1]
        · simp [h2]
      rw [hvu]
      simpa using ih (fun hm => hu (by simp [hm]))

/-- Exactly one share row of the list belongs to each user of a
duplicate-free list. -/
theorem filter_shareRows_user (cycle : String) (share : Amt) (u : String × String) :
    ∀ (users : List (String × String)), users.Nodup → u ∈ users →
      ((users.map (shareRow cycle share)).filter
        (fun c => c.userName == u.1 && c.userNumber == u.2 && c.chargeType == shareTypeCode &&
          c.cycle == cycle)) = [shareRow cycle share u] := by
  intro users
  induction users with
  | nil => intro _ hu; exact absurd hu (by simp)
  | cons v rest ih =>
      intro hnd hu
      rw [List.map_cons, List.filter_cons, shareRow_pred]
      by_cases hv : v = u
      · subst hv
        simp only [beq_self_eq_true, Bool.and_self, if_true]
        rw [filter_shareRows_not_user cycle share v rest (List.nodup_cons.mp hnd).1]
      · have hvu : (v.1 == u.1 && v.2 == u.2) = false := by
          have hne : ¬(v.1 = u.1 ∧ v.2 = u.2) := by
            rintro ⟨h1, h2⟩
            exact hv (Prod.ext h1 h2)
          rcases not_and_or.mp hne with h1 | h2
          · simp [h1]
          · simp [h2]
        rw [hvu]
        have hur : u ∈ rest := by
          rcases List.mem_cons.mp hu with h | h
          · exact absurd h.symm hv
          · exact h
        simpa using ih (List.nodup_cons.mp hnd).2 hur

/-- Claim C5: in the share phase of a completed split, with N active users
(the users set, duplicate free and nonempty, the account holder included),
pooled fee wActM = 130 and extracted discount d, exactly one share charge
of amount (wActM - d) / N is written for every active user, the amounts of
all share charges of the cycle sum to exactly wActM - d, and no share
charge of the cycle belongs to a user outside the set.  The store is
assumed to hold no share charge of this cycle beforehand, which is how the
split reaches this phase on a fresh billing cycle. -/
theorem share_allocation (cycle : String) (d : Amt) (users : List (String × String))
    (db : DB) (t0 : Amt)
    (hne : users ≠ []) (hnd : users.Nodup)
    (hfree : ∀ c ∈ db.charges, c.chargeType = shareTypeCode → c.cycle = cycle → False) :
    (∀ u ∈ users,
      (((processShares cycle ((wActM - d) / (users.length : Amt)) users db t0).1.charges.filter
        (fun c => c.userName == u.1 && c.userNumber == u.2 && c.chargeType == shareTypeCode &&
          c.cycle == cycle)).map (fun c => c.amount))
        = [(wActM - d) / (users.length : Amt)]) ∧
    ((((processShares cycle ((wActM - d) / (users.length : Amt)) users db t0).1.charges.filter
        (fun c => c.chargeType == shareTypeCode && c.cycle == cycle)).map
          (fun c => c.amount)).sum
      = wActM - d) ∧
    (∀ c ∈ (processShares cycle ((wActM - d) / (users.length : Amt)) users db t0).1.charges,
      c.chargeType = shareTypeCode → c.cycle = cycle →
        (c.userName, c.userNumber) ∈ users) := by
  have hfree2 : ∀ u ∈ users, ∀ c ∈ db.charges,
      sameTriple c (shareRow cycle ((wActM - d) / (users.length : Amt)) u) = false := by
    intro u _ c hc
    by_contra hb
    have hb2 : sameTriple c (shareRow cycle ((wActM - d) / (users.length : Amt)) u)
        = true := by
      cases hx : sameTriple c (shareRow cycle ((wActM - d) / (users.length : Amt)) u)
      · exact absurd hx hb
      · rfl
    unfold sameTriple shareRow at hb2
    simp only [Bool.and_eq_true, beq_iff_eq] at hb2
    exact hfree c hc hb2.1.2 hb2.2
  have hch := processShares_charges cycle ((wActM - d) / (users.length : Amt))
    users db t0 hnd hfree2
  have hdbtc : ∀ c ∈ db.charges,
      (c.chargeType == shareTypeCode && c.cycle == cycle) = false := by
    intro c hc
    by_contra hb
    have hb2 : (c.chargeType == shareTypeCode && c.cycle == cycle) = true := by
      cases hx : (c.chargeType == shareTypeCode && c.cycle == cycle)
      · exact absurd hx hb
      · rfl
    simp only [Bool.and_eq_true, beq_iff_eq] at hb2
    exact hfree c hc hb2.1 hb2.2
  refine ⟨?_, ?_, ?_⟩
  · intro u hu
    rw [hch, List.filter_append]
    have hdbnil : (db.charges.filter
        (fun c => c.userName == u.1 && c.userNumber == u.2 && c.chargeType == shareTypeCode &&
          c.cycle == cycle)) = [] := by
      rw [List.filter_eq_nil_iff]
      intro c hc hpred
      have : (c.chargeType == shareTypeCode && c.cycle == cycle) = true := by
        simp only [Bool.and_eq_true] at hpred ⊢
        exact ⟨hpred.1.2, hpred.2⟩
      rw [hdbtc c hc] at this
      exact Bool.false_ne_true this
    rw [hdbnil, filter_shareRows_user cycle _ u users hnd hu]
    simp [shareRow]
  · rw [hch, List.filter_append]
    have hdbnil : (db.charges.filter
        (fun c => c.chargeType == shareTypeCode && c.cycle == cycle)) = [] := by
      rw [List.filter_eq_nil_iff]
      intro c hc hpred
      rw [hdbtc c hc] at hpred
      exact Bool.false_ne_true hpred
    have hall : ((users.map (shareRow cycle ((wActM - d) / (users.length : Amt)))).filter
        (fun c => c.chargeType == shareTypeCode && c.cycle == cycle))
        = users.map (shareRow cycle ((wActM - d) / (users.length : Amt))) := by
      rw [List.filter_eq_self]
      intro c hc
      rcases List.mem_map.mp hc with ⟨v, _, rfl⟩
      simp [shareRow]
    rw [hdbnil, hall]
    rw [List.nil_append, List.map_map]
    have hmap : (users.map ((fun c : ChargeRow => c.amount) ∘
        shareRow cycle ((wActM - d) / (users.length : Amt))))
        = List.replicate users.length ((wActM - d) / (users.length : Amt)) := by
      rw [List.eq_replicate_iff]
      refine ⟨by simp, ?_⟩
      intro b hb
      rcases List.mem_map.mp hb with ⟨v, _, rfl⟩
      rfl
    rw [hmap, List.sum_replicate, nsmul_eq_mul]
    have hn : ((users.length : ℕ) : Amt) ≠ 0 := by
      simp only [ne_eq, Nat.cast_eq_zero, List.length_eq_zero]
      exact hne
    rw [mul_div_cancel₀ _ hn]
  · intro c hc htype hcycle
    rw [hch] at hc
    rcases List.mem_append.mp hc with hold | hnew
    · exact absurd (hfree c hold htype hcycle) not_false
    · rcases List.mem_map.mp hnew with ⟨v, hv, rfl⟩
      simpa [shareRow] using hv

/-- Witness for share_allocation: two active users, discount 20, empty
store, so each share is 55 and the share amounts sum to 110. -/
theorem share_allocation_witness :
    (∀ u ∈ [(("Alice" : String), ("111" : String)), ("Bob", "222")],
      (((processShares "2016-05" ((wActM - 20) / (([(("Alice" : String), ("111" : String)),
          ("Bob", "222")].length : Amt)))
          [(("Alice" : String), ("111" : String)), ("Bob", "222")] emptyDB 0).1.charges.filter
        (fun c => c.userName == u.1 && c.userNumber == u.2 && c.chargeType == shareTypeCode &&
          c.cycle == "2016-05")).map (fun c => c.amount))
        = [(wActM - 20) / (([(("Alice" : String), ("111" : String)),
            ("Bob", "222")].length : Amt))]) ∧
    ((((processShares "2016-05" ((wActM - 20) / (([(("Alice" : String), ("111" : String)),
          ("Bob", "222")].length : Amt)))
          [(("Alice" : String), ("111" : String)), ("Bob", "222")] emptyDB 0).1.charges.filter
        (fun c => c.chargeType == shareTypeCode && c.cycle == "2016-05")).map
          (fun c => c.amount)).sum
      = wActM - 20) ∧
    (∀ c ∈ (processShares "2016-05" ((wActM - 20) / (([(("Alice" : String), ("111" : String)),
          ("Bob", "222")].length : Amt)))
          [(("Alice" : String), ("111" : String)), ("Bob", "222")] emptyDB 0).1.charges,
      c.chargeType = shareTypeCode → c.cycle = "2016-05" →
        (c.userName, c.userNumber) ∈ [(("Alice" : String), ("111" : String)), ("Bob", "222")]) :=
  share_allocation "2016-05" 20 [("Alice", "111"), ("Bob", "222")] emptyDB 0
    (by decide) (by decide) (by decide)

/-- Claim C6: once the split has reached the reconciliation point (the
phases before the comparison finished without an exception), the check
passes exactly when the absolute difference between the computed wireless
sum and the printed wireless total is at most 0.01, raises CalculationError
exactly when the difference exceeds 0.01, and in both cases the final
store is exactly the store produced before the comparison: no persisted
charge is rolled back, deleted or updated by the check. -/
theorem reconciliation_check (p : Page) (db0 : DB)
    (hfresh : db0.cycles.contains (cycleNameOf p) = false)
    (hpre : (preReconcile p db0).2.2 = none) :
    (split p db0).1 = (preReconcile p db0).1 ∧
    ((split p db0).2 = some SplitErr.calcError ↔
      1 / 100 < |p.billWirelessTotal - (preReconcile p db0).2.1|) ∧
    ((split p db0).2 = none ↔
      |p.billWirelessTotal - (preReconcile p db0).2.1| ≤ 1 / 100) := by
  unfold split
  rw [if_neg (by rw [hfresh]; simp)]
  cases hp : preReconcile p db0 with
  | mk db1 pr =>
      obtain ⟨wt, oe⟩ := pr
      rw [hp] at hpre
      cases oe with
      | some e => exact absurd hpre (by simp)
      | none =>
          dsimp only
          by_cases hgt : 1 / 100 < |p.billWirelessTotal - wt|
          · rw [if_pos hgt]
            exact ⟨rfl, iff_of_true rfl hgt, iff_of_false (by simp) (not_le.mpr hgt)⟩
          · rw [if_neg hgt]
            exact ⟨rfl, iff_of_false (by simp) hgt, iff_of_true rfl (not_lt.mp hgt)⟩

/-- Page whose computed wireless total matches its printed total: the
holder pays 20 on the monthly item plus a share of 110, summing to the
printed 130. -/
def pageBalanced : Page :=
  { newChargeTitle := "New charges for 2016-06"
  , utvItems := []
  , uviItems := []
  , holder := { name := "Alice", number := "111"
              , items := [ { label := "Monthly Charges - Jun"
                           , body := "National Account Discount -$20.00 Total Monthly Charges $130.00" } ] }
  , others := []
  , billWirelessTotal := 130 }

/-- Witness for reconciliation_check on pageBalanced over an empty
store. -/
theorem reconciliation_check_witness :
    (split pageBalanced emptyDB).1 = (preReconcile pageBalanced emptyDB).1 ∧
    ((split pageBalanced emptyDB).2 = some SplitErr.calcError ↔
      1 / 100 < |pageBalanced.billWirelessTotal - (preReconcile pageBalanced emptyDB).2.1|) ∧
    ((split pageBalanced emptyDB).2 = none ↔
      |pageBalanced.billWirelessTotal - (preReconcile pageBalanced emptyDB).2.1| ≤ 1 / 100) :=
  reconciliation_check pageBalanced emptyDB (by decide) (by with_unfolding_all decide)

/-- Statement that no two rows of the Charge table agree on the unique
triple (user, charge_type, billing_cycle). -/
def UniqueTriples (db : DB) : Prop :=
  db.charges.Pairwise (fun a b => sameTriple a b = false)

/-- A successful insert appends the row and certifies that no stored row
shared its triple. -/
theorem insertCharge_some_charges {db : DB} {c : ChargeRow} {db2 : DB}
    (h : insertCharge db c = some db2) :
    db2.charges = db.charges ++ [c] ∧
      (db.charges.any (fun c0 => sameTriple c0 c)) = false := by
  unfold insertCharge at h
  split at h
  · simp at h
  next hany =>
      simp only [Option.some.injEq] at h
      refine ⟨by rw [← h], ?_⟩
      simpa using hany

/-- Charge-table equality transports the uniqueness invariant. -/
theorem uniqueTriples_of_eq {db db2 : DB} (hch : db2.charges = db.charges)
    (h : UniqueTriples db) : UniqueTriples db2 := by
  unfold UniqueTriples at h ⊢
  rw [hch]
  exact h

/-- A successful insert preserves the uniqueness invariant. -/
theorem uniqueTriples_insert {db : DB} {c : ChargeRow} {db2 : DB}
    (hins : insertCharge db c = some db2) (h : UniqueTriples db) :
    UniqueTriples db2 := by
  obtain ⟨hch, hany⟩ := insertCharge_some_charges hins
  unfold UniqueTriples at h ⊢
  rw [hch, List.pairwise_append]
  refine ⟨h, by simp, ?_⟩
  intro a ha b hb
  rw [List.mem_singleton.mp hb]
  have := List.any_eq_false.mp hany a ha
  simpa using this

/-- The logged save preserves the uniqueness invariant whether or not the
insert was a duplicate. -/
theorem uniqueTriples_save {db : DB} {c : ChargeRow} (h : UniqueTriples db) :
    UniqueTriples (saveChargeLogged db c) := by
  unfold saveChargeLogged
  cases hins : insertCharge db c with
  | none => exact h
  | some db2 => exact uniqueTriples_insert hins h

/-- One U-verse item preserves the uniqueness invariant. -/
theorem processSimpleItem_unique {cat cycle : String} {holder : String × String}
    {db : DB} {it : LineItem} {db2 : DB}
    (hok : processSimpleItem cat cycle holder db it = Except.ok db2)
    (h : UniqueTriples db) : UniqueTriples db2 := by
  unfold processSimpleItem at hok
  split at hok
  · simp at hok
  · split at hok
    · simp at hok
    · simp only [Except.ok.injEq] at hok
      rw [← hok]
      exact uniqueTriples_save (uniqueTriples_of_eq (getOrCreateType_charges db _ _ _) h)

/-- Step equation of the U-verse loop on a nonempty item list. -/
theorem processSimpleItems_cons (cat cycle : String) (holder : String × String)
    (it : LineItem) (rest : List LineItem) (db : DB) :
    processSimpleItems cat cycle holder (it :: rest) db =
      match processSimpleItem cat cycle holder db it with
      | Except.error e => (db, some e)
      | Except.ok db2 => processSimpleItems cat cycle holder rest db2 := by
  rw [processSimpleItems]

/-- The U-verse loop preserves the uniqueness invariant. -/
theorem processSimpleItems_unique (cat cycle : String) (holder : String × String) :
    ∀ (items : List LineItem) (db : DB), UniqueTriples db →
      UniqueTriples (processSimpleItems cat cycle holder items db).1 := by
  intro items
  induction items with
  | nil => intro db h; exact h
  | cons it rest ih =>
      intro db h
      rw [processSimpleItems_cons]
      cases hstep : processSimpleItem cat cycle holder db it with
      | error e => exact h
      | ok db2 => exact ih db2 (processSimpleItem_unique hstep h)

/-- The holder iteration tail preserves the uniqueness invariant. -/
theorem holderItemTail_unique {cycle : String} {holder : String × String} {db : DB}
    {label body : String} {disc : Option Amt} {offset : Amt} {st2 : WSt}
    (hok : holderItemTail cycle holder db label body disc offset = Except.ok st2)
    (h : UniqueTriples db) : UniqueTriples st2.db := by
  unfold holderItemTail at hok
  split at hok
  · simp at hok
  · split at hok
    · simp at hok
    · simp only [Except.ok.injEq] at hok
      rw [← hok]
      exact uniqueTriples_save (uniqueTriples_of_eq (getOrCreateType_charges db _ _ _) h)

/-- One holder iteration preserves the uniqueness invariant. -/
theorem processHolderItem_unique {cycle : String} {holder : String × String}
    {st : WSt} {it : LineItem} {st2 : WSt}
    (hok : processHolderItem cycle holder st it = Except.ok st2)
    (h : UniqueTriples st.db) : UniqueTriples st2.db := by
  unfold processHolderItem at hok
  by_cases hmc : strStartsWith it.label "Monthly Charges" = true
  · rw [if_pos hmc] at hok
    split at hok
    · split at hok
      · simp at hok
      · exact holderItemTail_unique hok h
    · split at hok
      · simp at hok
      · exact holderItemTail_unique hok h
  · rw [if_neg hmc] at hok
    exact holderItemTail_unique hok h

/-- The holder loop preserves the uniqueness invariant. -/
theorem processHolderItems_unique (cycle : String) (holder : String × String) :
    ∀ (items : List LineItem) (st : WSt), UniqueTriples st.db →
      UniqueTriples (processHolderItems cycle holder items st).1.db := by
  intro items
  induction items with
  | nil => intro st h; exact h
  | cons it rest ih =>
      intro st h
      rw [processHolderItems_cons]
      cases hstep : processHolderItem cycle holder st it with
      | error e => exact h
      | ok st2 => exact ih st2 (processHolderItem_unique hstep h)

/-- One additional-line item preserves the uniqueness invariant. -/
theorem processUserItem_unique {cycle : String} {offsetOpt : Option Amt}
    {u : String × String} {db : DB} {it : LineItem} {db2 : DB} {ct : Amt}
    (hok : processUserItem cycle offsetOpt u db it = Except.ok (db2, ct))
    (h : UniqueTriples db) : UniqueTriples db2 := by
  unfold processUserItem at hok
  split at hok
  · simp at hok
  · split at hok
    · simp at hok
    · split at hok
      · simp at hok
      · simp only [Except.ok.injEq, Prod.mk.injEq] at hok
        rw [← hok.1]
        exact uniqueTriples_save (uniqueTriples_of_eq (getOrCreateType_charges db _ _ _) h)

/-- Step equation of the additional-line item loop. -/
theorem processUserItems_cons (cycle : String) (offsetOpt : Option Amt)
    (u : String × String) (it : LineItem) (rest : List LineItem) (db : DB) (ct : Amt) :
    processUserItems cycle offsetOpt u (it :: rest) db ct =
      match processUserItem cycle offsetOpt u db it with
      | Except.error e => (db, ct, some e)
      | Except.ok (db2, ct2) => processUserItems cycle offsetOpt u rest db2 ct2 := by
  rw [processUserItems]

/-- The additional-line item loop preserves the uniqueness invariant. -/
theorem processUserItems_unique (cycle : String) (offsetOpt : Option Amt)
    (u : String × String) :
    ∀ (items : List LineItem) (db : DB) (ct : Amt), UniqueTriples db →
      UniqueTriples (processUserItems cycle offsetOpt u items db ct).1 := by
  intro items
  induction items with
  | nil => intro db ct h; exact h
  | cons it rest ih =>
      intro db ct h
      rw [processUserItems_cons]
      cases hstep : processUserItem cycle offsetOpt u db it with
      | error e => exact h
      | ok pr =>
          obtain ⟨db2, ct2⟩ := pr
          exact ih db2 ct2 (processUserItem_unique hstep h)

/-- Step equation of the users loop when the entry is skipped as the
account holder number. -/
theorem processUsers_cons_eq (cycle holderNum : String) (offsetOpt : Option Amt)
    (pu : PageUser) (rest : List PageUser) (db : DB) (users : List (String × String))
    (hn : (pu.number == holderNum) = true) :
    processUsers cycle holderNum offsetOpt (pu :: rest) db users =
      processUsers cycle holderNum offsetOpt rest db users := by
  rw [processUsers, if_pos hn]

/-- Step equation of the users loop on an entry distinct from the account
holder number. -/
theorem processUsers_cons_ne (cycle holderNum : String) (offsetOpt : Option Amt)
    (pu : PageUser) (rest : List PageUser) (db : DB) (users : List (String × String))
    (hn : (pu.number == holderNum) = false) :
    processUsers cycle holderNum offsetOpt (pu :: rest) db users =
      match processUserItems cycle offsetOpt (pu.name, pu.number) pu.items
          (getOrCreateUser db pu.name pu.number) 0 with
      | (db2, _, some e) => (db2, users, some e)
      | (db2, ct, none) =>
          processUsers cycle holderNum offsetOpt rest db2
            (if 0 < ct then addActive users (pu.name, pu.number) else users) := by
  rw [processUsers, if_neg (by simp [hn])]

/-- The users loop preserves the uniqueness invariant. -/
theorem processUsers_unique (cycle holderNum : String) (offsetOpt : Option Amt) :
    ∀ (pus : List PageUser) (db : DB) (users : List (String × String)),
      UniqueTriples db →
      UniqueTriples (processUsers cycle holderNum offsetOpt pus db users).1 := by
  intro pus
  induction pus with
  | nil => intro db users h; exact h
  | cons pu rest ih =>
      intro db users h
      cases hn : (pu.number == holderNum) with
      | true =>
          rw [processUsers_cons_eq _ _ _ _ _ _ _ hn]
          exact ih db users h
      | false =>
          rw [processUsers_cons_ne _ _ _ _ _ _ _ hn]
          have hdb1 : UniqueTriples (getOrCreateUser db pu.name pu.number) :=
            uniqueTriples_of_eq (getOrCreateUser_charges db _ _) h
          cases hri : processUserItems cycle offsetOpt (pu.name, pu.number) pu.items
              (getOrCreateUser db pu.name pu.number) 0 with
          | mk db2 p2 =>
              obtain ⟨ct, oe⟩ := p2
              have h2 : UniqueTriples db2 := by
                have hh := processUserItems_unique cycle offsetOpt (pu.name, pu.number)
                  pu.items (getOrCreateUser db pu.name pu.number) 0 hdb1
                rw [hri] at hh
                exact hh
              cases oe with
              | some e => exact h2
              | none => exact ih db2 _ h2

/-- The share loop preserves the uniqueness invariant. -/
theorem processShares_unique (cycle : String) (share : Amt) :
    ∀ (users : List (String × String)) (db : DB) (t0 : Amt), UniqueTriples db →
      UniqueTriples (processShares cycle share users db t0).1 := by
  intro users
  induction users with
  | nil => intro db t0 h; exact h
  | cons u rest ih =>
      intro db t0 h
      rw [processShares_cons]
      cases hins : insertCharge (getOrCreateType db shareTypeCode shareTypeText "wireless")
          ⟨u.1, u.2, shareTypeCode, cycle, share⟩ with
      | none =>
          exact ih _ _ (uniqueTriples_of_eq (getOrCreateType_charges db _ _ _) h)
      | some db2 =>
          exact ih _ _ (uniqueTriples_insert hins
            (uniqueTriples_of_eq (getOrCreateType_charges db _ _ _) h))

/-- All phases of the split before reconciliation preserve the uniqueness
invariant. -/
theorem preReconcile_unique (p : Page) (db0 : DB) (h : UniqueTriples db0) :
    UniqueTriples (preReconcile p db0).1 := by
  have h1 : UniqueTriples (getOrCreateCategory
      { db0 with cycles := db0.cycles ++ [cycleNameOf p] } "utv" "U-verse TV") :=
    uniqueTriples_of_eq (by rw [getOrCreateCategory_charges]) h
  unfold preReconcile
  split
  next db e hutv =>
      have hh := processSimpleItems_unique "utv" (cycleNameOf p)
        (p.holder.name, p.holder.number) p.utvItems _ h1
      rw [hutv] at hh
      exact hh
  next db3 hutv =>
      have h3 : UniqueTriples db3 := by
        have hh := processSimpleItems_unique "utv" (cycleNameOf p)
          (p.holder.name, p.holder.number) p.utvItems _ h1
        rw [hutv] at hh
        exact hh
      have h4 : UniqueTriples (getOrCreateCategory db3 "uvi" "U-verse Internet") :=
        uniqueTriples_of_eq (getOrCreateCategory_charges _ _ _) h3
      split
      next db e huvi =>
          have hh := processSimpleItems_unique "uvi" (cycleNameOf p)
            (p.holder.name, p.holder.number) p.uviItems _ h4
          rw [huvi] at hh
          exact hh
      next db5 huvi =>
          have h5 : UniqueTriples db5 := by
            have hh := processSimpleItems_unique "uvi" (cycleNameOf p)
              (p.holder.name, p.holder.number) p.uviItems _ h4
            rw [huvi] at hh
            exact hh
          have h6 : UniqueTriples (getOrCreateCategory db5 "wireless" "Wireless") :=
            uniqueTriples_of_eq (getOrCreateCategory_charges _ _ _) h5
          split
          next st hst =>
              have hh := processHolderItems_unique (cycleNameOf p)
                (p.holder.name, p.holder.number) p.holder.items
                ⟨getOrCreateCategory db5 "wireless" "Wireless", none, none⟩ h6
              rw [hst] at hh
              exact hh
          next st hst =>
              have h7 : UniqueTriples st.db := by
                have hh := processHolderItems_unique (cycleNameOf p)
                  (p.holder.name, p.holder.number) p.holder.items
                  ⟨getOrCreateCategory db5 "wireless" "Wireless", none, none⟩ h6
                rw [hst] at hh
                exact hh
              split
              next db e husers =>
                  have hh := processUsers_unique (cycleNameOf p) p.holder.number st.offset
                    p.others st.db [(p.holder.name, p.holder.number)] h7
                  rw [husers] at hh
                  exact hh
              next db7 users husers =>
                  have h8 : UniqueTriples db7 := by
                    have hh := processUsers_unique (cycleNameOf p) p.holder.number st.offset
                      p.others st.db [(p.holder.name, p.holder.number)] h7
                    rw [husers] at hh
                    exact hh
                  split
                  next => exact h8
                  next d hd =>
                      split
                      next db8 wt hshare =>
                          have hh := processShares_unique (cycleNameOf p)
                            ((wActM - d) / (users.length : Amt)) users db7 0 h8
                          rw [hshare] at hh
                          exact hh

/-- Claim C8: attempting to insert a Charge whose (user, charge_type,
billing_cycle) triple is already stored creates no second row and leaves
the existing row untouched while signalling the duplicate (the insert
returns the error the caller logs); the whole split keeps the charge table
free of duplicate triples; and a duplicate inside the item loop does not
abort it: the loop continues with the remaining items on the unchanged
store (only the charge type row is created). -/
theorem duplicate_charge_handling :
    (∀ (db : DB) (c : ChargeRow),
        (db.charges.any (fun c0 => sameTriple c0 c)) = true →
        insertCharge db c = none ∧ saveChargeLogged db c = db) ∧
    (∀ (p : Page) (db0 : DB), UniqueTriples db0 → UniqueTriples (split p db0).1) ∧
    (∀ (cat cycle : String) (holder : String × String) (it : LineItem)
        (rest : List LineItem) (db : DB) (v : Amt),
        extractAmount (canonLabel it.label) it.body = some v →
        (db.charges.any (fun c0 => sameTriple c0
          ⟨holder.1, holder.2, slugify (canonLabel it.label), cycle, v⟩)) = true →
        processSimpleItems cat cycle holder (it :: rest) db =
          processSimpleItems cat cycle holder rest
            (getOrCreateType db (slugify (canonLabel it.label)) (canonLabel it.label) cat)) := by
  refine ⟨?_, ?_, ?_⟩
  · intro db c hdup
    have hins : insertCharge db c = none := by
      unfold insertCharge
      rw [hdup]
      rfl
    refine ⟨hins, ?_⟩
    unfold saveChargeLogged
    rw [hins]
  · intro p db0 h
    unfold split
    split
    · exact h
    · have hp := preReconcile_unique p db0 h
      split
      next db e heq =>
          rw [heq] at hp
          exact hp
      next db wt heq =>
          rw [heq] at hp
          split
          · exact hp
          · exact hp
  · intro cat cycle holder it rest db v hex hdup
    obtain ⟨tok, h1, h2⟩ := Option.bind_eq_some.mp hex
    have hstep : processSimpleItem cat cycle holder db it =
        Except.ok (getOrCreateType db (slugify (canonLabel it.label))
          (canonLabel it.label) cat) := by
      unfold processSimpleItem
      rw [h1]
      dsimp only
      rw [h2]
      dsimp only
      congr 1
      unfold saveChargeLogged insertCharge
      rw [getOrCreateType_charges, hdup]
      rfl
    rw [processSimpleItems_cons, hstep]

/-- Witness for duplicate_charge_handling: a store already holding the
(Alice, plan, 2016-07) triple rejects a second such row without change,
the split of pageBalanced keeps an empty store duplicate free, and the
U-verse loop continues past the duplicate item. -/
theorem duplicate_charge_handling_witness :
    (insertCharge ⟨[], [], [], [], [⟨"Alice", "111", "plan", "2016-07", 45⟩]⟩
        ⟨"Alice", "111", "plan", "2016-07", 45⟩ = none ∧
      saveChargeLogged ⟨[], [], [], [], [⟨"Alice", "111", "plan", "2016-07", 45⟩]⟩
        ⟨"Alice", "111", "plan", "2016-07", 45⟩
        = ⟨[], [], [], [], [⟨"Alice", "111", "plan", "2016-07", 45⟩]⟩) ∧
    UniqueTriples (split pageBalanced emptyDB).1 ∧
    processSimpleItems "utv" "2016-07" ("Alice", "111")
        [⟨"Plan", "Total Plan $45.00"⟩]
        ⟨[], [], [], [], [⟨"Alice", "111", "plan", "2016-07", 45⟩]⟩
      = processSimpleItems "utv" "2016-07" ("Alice", "111") []
          (getOrCreateType ⟨[], [], [], [], [⟨"Alice", "111", "plan", "2016-07", 45⟩]⟩
            (slugify (canonLabel "Plan")) (canonLabel "Plan") "utv") :=
  ⟨duplicate_charge_handling.1 _ _ (by decide),
   duplicate_charge_handling.2.1 pageBalanced emptyDB List.Pairwise.nil,
   duplicate_charge_handling.2.2 "utv" "2016-07" ("Alice", "111")
     ⟨"Plan", "Total Plan $45.00"⟩ [] _ 45
     (by with_unfolding_all decide) (by with_unfolding_all decide)⟩

/-- Position j of a list carries a dollar amount when a dollar sign sits
there with an amount character right after it. -/
def dollarAmtAt (l : List Char) (j : ℕ) : Prop :=
  l[j]? = some '$' ∧ ∃ c, l[j + 1]? = some c ∧ isAmtChar c = true

/-- Position i of the text carries a regex match: the anchor starts there
and a dollar amount occurs somewhere at or after the anchor end. -/
def matchAt (a b : List Char) (i : ℕ) : Prop :=
  startsWithChars a (b.drop i) = true ∧ ∃ j, dollarAmtAt (b.drop (i + a.length)) j

/-- Spec-side statement that the pattern Total-label, any text, dollar
amount matches somewhere in the body. -/
def TotalMatch (a b : List Char) : Prop := ∃ i, matchAt a b i

/-- Head amount test, spelled with positions. -/
theorem headIsAmt_iff (cs : List Char) :
    headIsAmt cs = true ↔ ∃ d, cs[0]? = some d ∧ isAmtChar d = true := by
  cases cs <;> simp [headIsAmt]

/-- Dollar amount at the head of a cons cell. -/
theorem dollarAmtAt_cons_zero (c : Char) (cs : List Char) :
    dollarAmtAt (c :: cs) 0 ↔ c = '$' ∧ headIsAmt cs = true := by
  unfold dollarAmtAt
  rw [headIsAmt_iff]
  simp

/-- Dollar amount positions shift across a cons cell. -/
theorem dollarAmtAt_cons_succ (c : Char) (cs : List Char) (j : ℕ) :
    dollarAmtAt (c :: cs) (j + 1) ↔ dollarAmtAt cs j := by
  unfold dollarAmtAt
  simp

/-- The dollar scan fails exactly when no position carries a dollar
amount. -/
theorem findDollarAmt_eq_none :
    ∀ (l : List Char), findDollarAmt l = none ↔ ∀ j, ¬ dollarAmtAt l j := by
  intro l
  induction l with
  | nil =>
      constructor
      · intro _ j hj
        simp [dollarAmtAt] at hj
      · intro _
        rfl
  | cons c cs ih =>
      by_cases hc : (c == '$' && headIsAmt cs) = true
      · rw [findDollarAmt, if_pos hc]
        apply iff_of_false
        · simp
        · intro hall
          apply hall 0
          rw [Bool.and_eq_true] at hc
          exact (dollarAmtAt_cons_zero c cs).mpr ⟨beq_iff_eq.mp hc.1, hc.2⟩
      · rw [findDollarAmt, if_neg hc, ih]
        constructor
        · intro h j hj
          cases j with
          | zero =>
              have hz := (dollarAmtAt_cons_zero c cs).mp hj
              apply hc
              rw [Bool.and_eq_true]
              exact ⟨beq_iff_eq.mpr hz.1, hz.2⟩
          | succ j => exact h j ((dollarAmtAt_cons_succ c cs j).mp hj)
        · intro h j hj
          exact h (j + 1) ((dollarAmtAt_cons_succ c cs j).mpr hj)

/-- Matches shift across a cons cell. -/
theorem matchAt_cons_succ (a : List Char) (c : Char) (cs : List Char) (i : ℕ) :
    matchAt a (c :: cs) (i + 1) ↔ matchAt a cs i := by
  unfold matchAt
  rw [List.drop_succ_cons,
    show i + 1 + a.length = (i + a.length) + 1 from by omega, List.drop_succ_cons]

/-- The anchor search fails exactly when no position of the text carries a
match. -/
theorem searchAnchor_eq_none (a : List Char) :
    ∀ (b : List Char), searchAnchor a b = none ↔ ∀ i, ¬ matchAt a b i := by
  intro b
  induction b with
  | nil =>
      constructor
      · rintro _ i ⟨_, j, hj⟩
        simp [dollarAmtAt] at hj
      · intro _
        rfl
  | cons c cs ih =>
      have hsplit : (∀ i, ¬ matchAt a (c :: cs) i) ↔
          (¬ matchAt a (c :: cs) 0 ∧ ∀ i, ¬ matchAt a cs i) := by
        constructor
        · intro h
          exact ⟨h 0, fun i hm => h (i + 1) ((matchAt_cons_succ a c cs i).mpr hm)⟩
        · rintro ⟨h0, hs⟩ i
          cases i with
          | zero => exact h0
          | succ i => exact fun hm => hs i ((matchAt_cons_succ a c cs i).mp hm)
      rw [hsplit]
      by_cases hpre : startsWithChars a (c :: cs) = true
      · rw [searchAnchor, if_pos hpre]
        cases hfd : findDollarAmt ((c :: cs).drop a.length) with
        | some g =>
            apply iff_of_false
            · simp
            · rintro ⟨h0, _⟩
              apply h0
              refine ⟨hpre, ?_⟩
              have hne : ¬ (findDollarAmt ((c :: cs).drop a.length) = none) := by
                rw [hfd]
                simp
              rw [findDollarAmt_eq_none] at hne
              push_neg at hne
              obtain ⟨j, hj⟩ := hne
              rw [Nat.zero_add]
              exact ⟨j, hj⟩
        | none =>
            rw [ih]
            have h0 : ¬ matchAt a (c :: cs) 0 := by
              rintro ⟨_, j, hj⟩
              rw [Nat.zero_add] at hj
              exact (findDollarAmt_eq_none _).mp hfd j hj
            exact (and_iff_right h0).symm
      · rw [searchAnchor, if_neg hpre, ih]
        have h0 : ¬ matchAt a (c :: cs) 0 := fun hm => hpre hm.1
        exact (and_iff_right h0).symm

/-- A list starts with itself followed by anything. -/
theorem startsWithChars_append (a r : List Char) : startsWithChars a (a ++ r) = true := by
  induction a with
  | nil => rfl
  | cons c cs ih => simp [startsWithChars, ih]

/-- Search on a nonempty text whose head matches the anchor with a found
amount. -/
theorem searchAnchor_found {a b g : List Char}
    (hb : b ≠ []) (hpre : startsWithChars a b = true)
    (hfd : findDollarAmt (b.drop a.length) = some g) :
    searchAnchor a b = some g := by
  cases b with
  | nil => exact absurd rfl hb
  | cons c cs => rw [searchAnchor, if_pos hpre, hfd]

/-- The dollar scan skips dollar-free text and captures at the first
dollar sign followed by an amount character. -/
theorem findDollarAmt_skip {m : List Char} (hm : '$' ∉ m) (t : List Char)
    (ht : headIsAmt t = true) :
    findDollarAmt (m ++ '$' :: t) = some (takeAmt t) := by
  induction m with
  | nil =>
      rw [List.nil_append, findDollarAmt]
      simp [ht]
  | cons x xs ih =>
      have hx : (x == '$') = false := by
        simp only [beq_eq_false_iff_ne, ne_eq]
        exact fun he => hm (by simp [he])
      rw [List.cons_append, findDollarAmt, if_neg (by simp [hx])]
      exact ih (fun hmem => hm (List.mem_cons_of_mem _ hmem))

/-- The greedy capture of an amount run followed by a non-amount head is
the run itself. -/
theorem takeAmt_append {d : List Char} (hd : ∀ c ∈ d, isAmtChar c = true)
    (s : List Char) (hs : headIsAmt s = false) :
    takeAmt (d ++ s) = d := by
  induction d with
  | nil =>
      rw [List.nil_append]
      cases s with
      | nil => rfl
      | cons x xs =>
          simp only [headIsAmt] at hs
          simp [takeAmt, hs]
  | cons x xs ih =>
      rw [List.cons_append, takeAmt, if_pos (hd x (by simp))]
      rw [ih (fun c hc => hd c (by simp [hc]))]

/-- On a text decomposed as leading part, anchor, dollar-free middle, and a
dollar amount, with no anchor occurrence inside the leading part, the
search captures exactly the amount token. -/
theorem searchAnchor_decomposition (a : List Char) :
    ∀ (p m d s : List Char),
      (∀ i < p.length,
        startsWithChars a ((p ++ a ++ m ++ '$' :: (d ++ s)).drop i) = false) →
      '$' ∉ m → d ≠ [] → (∀ c ∈ d, isAmtChar c = true) → headIsAmt s = false →
      searchAnchor a (p ++ a ++ m ++ '$' :: (d ++ s)) = some d := by
  intro p
  induction p with
  | nil =>
      intro m d s hfirst hm hd hall hs2
      have ht : headIsAmt (d ++ s) = true := by
        cases d with
        | nil => exact absurd rfl hd
        | cons c1 ds =>
            simp only [List.cons_append, headIsAmt]
            exact hall c1 (by simp)
      show searchAnchor a ((a ++ m) ++ '$' :: (d ++ s)) = some d
      rw [List.append_assoc]
      apply searchAnchor_found
      · simp
      · exact startsWithChars_append a _
      · rw [List.drop_left, findDollarAmt_skip hm _ ht, takeAmt_append hall s hs2]
  | cons q p' ih =>
      intro m d s hfirst hm hd hall hs
      have hq : startsWithChars a (q :: (p' ++ a ++ m ++ '$' :: (d ++ s))) = false :=
        hfirst 0 (by simp)
      rw [show (q :: p') ++ a ++ m ++ '$' :: (d ++ s)
        = q :: (p' ++ a ++ m ++ '$' :: (d ++ s)) from rfl]
      rw [searchAnchor,
        if_neg (fun hcond => Bool.false_ne_true (hq ▸ hcond))]
      apply ih m d s ?_ hm hd hall hs
      intro i hi
      exact hfirst (i + 1) (by simpa using Nat.succ_lt_succ hi)

/-- Test for the characters the Python regex engine treats specially.  The
pattern of main.py interpolates the raw label between these, so a label
containing one of them is not matched literally. -/
def isRegexMeta (c : Char) : Bool :=
  c == '.' || c == '^' || c == '$' || c == '*' || c == '+' || c == '?' ||
    c == '\x7b' || c == '\x7d' || c == '[' || c == ']' || c == '\\' ||
    c == '|' || c == '(' || c == ')'

/-- Anchor match under the regex interpretation of the interpolated label,
for patterns built of literal characters and the dot metacharacter: under
DOTALL a dot matches any single character.  This is how re.search reads
the un-escaped label of main.py when it carries dots; each pattern
character consumes exactly one text character, and such a label adds no
group, so group(1) still captures the amount. -/
def regexStartsWith : List Char → List Char → Bool
  | [], _ => true
  | _ :: _, [] => false
  | a :: as, b :: bs => (a == '.' || a == b) && regexStartsWith as bs

/-- The anchor search of searchAnchor with the regex reading of the
pattern: the embedding of re.search for labels made of literal characters
and dots. -/
def regexSearchAnchor (anchor : List Char) : List Char → Option (List Char)
  | [] => none
  | c :: cs =>
      if regexStartsWith anchor (c :: cs) then
        match findDollarAmt ((c :: cs).drop anchor.length) with
        | some g => some g
        | none => regexSearchAnchor anchor cs
      else regexSearchAnchor anchor cs

/-- Amount-token extraction under the regex reading of the interpolated
label. -/
def regexExtractTotal (label body : String) : Option (List Char) :=
  regexSearchAnchor (anchorChars label) body.toList

/-- On a dot-free pattern the regex reading of the anchor and the literal
reading agree. -/
theorem regexStartsWith_eq_of_no_dot :
    ∀ (a b : List Char), (∀ c ∈ a, (c == '.') = false) →
      regexStartsWith a b = startsWithChars a b := by
  intro a
  induction a with
  | nil => intro b _; rfl
  | cons x xs ih =>
      intro b h
      cases b with
      | nil => rfl
      | cons y ys =>
          have hx : (x == '.') = false := h x (by simp)
          rw [regexStartsWith, startsWithChars, ih ys (fun c hc => h c (by simp [hc])),
            hx, Bool.false_or]

/-- On a dot-free anchor the regex search and the literal search agree. -/
theorem regexSearchAnchor_eq_of_no_dot (a : List Char)
    (h : ∀ c ∈ a, (c == '.') = false) :
    ∀ (b : List Char), regexSearchAnchor a b = searchAnchor a b := by
  intro b
  induction b with
  | nil => rfl
  | cons c cs ih =>
      rw [regexSearchAnchor, searchAnchor, regexStartsWith_eq_of_no_dot a _ h, ih]

/-- A metacharacter-free label yields a dot-free anchor. -/
theorem anchorChars_no_dot {label : String}
    (h : ∀ c ∈ label.toList, isRegexMeta c = false) :
    ∀ c ∈ anchorChars label, (c == '.') = false := by
  intro c hc
  have hsplit : anchorChars label = "Total ".toList ++ label.toList := rfl
  rw [hsplit] at hc
  rcases List.mem_append.mp hc with h1 | h2
  · have h1x : c ∈ ['T', 'o', 't', 'a', 'l', ' '] := h1
    fin_cases h1x <;> rfl
  · cases hx : (c == '.') with
    | false => rfl
    | true =>
        have hm : isRegexMeta c = true := by
          unfold isRegexMeta
          rw [hx]
          rfl
        rw [h c h2] at hm
        exact absurd hm (by simp)

/-- Claim C4, counterexample: main.py interpolates the label un-escaped
into the regex, so a label carrying the dot metacharacter is not matched
literally.  With label A.B and body Total AxB $9 the program pattern
matches (the dot consumes the x) and extraction returns the token 9, while
the body carries no literal occurrence of Total A.B followed by a dollar
amount, where the claim requires extraction to fail. -/
theorem injected_label_metacharacter_counterexample :
    regexExtractTotal "A.B" "Total AxB $9" = some ['9'] ∧
    ¬ TotalMatch (anchorChars "A.B") ("Total AxB $9").toList := by
  refine ⟨by decide, fun hm => ?_⟩
  obtain ⟨i, hmi⟩ := hm
  exact (searchAnchor_eq_none (anchorChars "A.B") ("Total AxB $9").toList).mp
    (by decide) i hmi

/-- Claim C4, amended: for every (label, body) pair whose label is free of
regex metacharacters, so that the interpolated pattern reads the label
literally, the regex search coincides with the literal anchor search,
extraction fails exactly when the body holds no Total-label anchor
followed by a dollar amount, and on a body holding such a pattern, the
first occurrence being the explicit one, extraction returns exactly the
amount token written after the dollar sign, whose float is the extracted
value. -/
theorem extraction_contract :
    (∀ (label body : String),
      (∀ c ∈ label.toList, isRegexMeta c = false) →
      regexExtractTotal label body = extractTotal label body ∧
        (extractTotal label body = none ↔ ¬ TotalMatch (anchorChars label) body.toList)) ∧
    (∀ (label : String) (p m d s : List Char),
      (∀ c ∈ label.toList, isRegexMeta c = false) →
      (∀ i < p.length,
        startsWithChars (anchorChars label)
          ((p ++ anchorChars label ++ m ++ '$' :: (d ++ s)).drop i) = false) →
      '$' ∉ m → d ≠ [] → (∀ c ∈ d, isAmtChar c = true) → headIsAmt s = false →
      regexSearchAnchor (anchorChars label) (p ++ anchorChars label ++ m ++ '$' :: (d ++ s))
          = some d ∧
        (regexSearchAnchor (anchorChars label)
          (p ++ anchorChars label ++ m ++ '$' :: (d ++ s))).bind parseAmt = parseAmt d) := by
  constructor
  · intro label body hmeta
    refine ⟨regexSearchAnchor_eq_of_no_dot (anchorChars label)
      (anchorChars_no_dot hmeta) body.toList, ?_⟩
    unfold extractTotal TotalMatch
    rw [searchAnchor_eq_none]
    exact not_exists.symm
  · intro label p m d s hmeta h1 h2 h3 h4 h5
    have hm := searchAnchor_decomposition (anchorChars label) p m d s h1 h2 h3 h4 h5
    rw [regexSearchAnchor_eq_of_no_dot (anchorChars label) (anchorChars_no_dot hmeta)]
    exact ⟨hm, by rw [hm]; rfl⟩

/-- Witness for extraction_contract: the dot-free label Plan, a body
without the pattern yielding no match, and a body built around the token
45.5 yielding exactly that token. -/
theorem extraction_contract_witness :
    (regexExtractTotal "Plan" "no match here" = extractTotal "Plan" "no match here") ∧
    (¬ TotalMatch (anchorChars "Plan") ("no match here").toList) ∧
    regexSearchAnchor (anchorChars "Plan")
        ("xx".toList ++ anchorChars "Plan" ++ " zz".toList ++
          '$' :: (['4', '5', '.', '5'] ++ " end".toList))
      = some ['4', '5', '.', '5'] :=
  ⟨(extraction_contract.1 "Plan" "no match here" (by decide)).1,
   ((extraction_contract.1 "Plan" "no match here" (by decide)).2).mp rfl,
   (extraction_contract.2 "Plan" "xx".toList " zz".toList ['4', '5', '.', '5'] " end".toList
     (by decide) (by decide) (by decide) (by decide) (by decide) (by decide)).1⟩

/-- Row produced by the summary join of print_wireless_monthly_summary:
one User with the MonthlyBill total of the cycle.  userId is the
autoincrement primary key, so it numbers users in insertion order. -/
structure SummaryRow where
  userId : ℕ
  name : String
  number : String
  cycleId : ℕ
  total : Amt
deriving DecidableEq, Repr

/-- Admissible output of the summary query of services.py: the query
filters MonthlyBill rows of the cycle and joins User but carries no
order_by clause, so SQL leaves the row order unspecified and every
permutation of the matching rows is a possible output. -/
@[reducible] def summaryAdmissible (tbl : List SummaryRow) (bc : ℕ)
    (out : List SummaryRow) : Prop :=
  out.Perm (tbl.filter (fun r => r.cycleId == bc))

/-- Row produced by the detail query: user, charge type text and summed
amount. -/
structure DetailRow where
  userId : ℕ
  name : String
  number : String
  chargeType : String
  total : Amt
deriving DecidableEq, Repr

/-- Aggregation computed by the detail query of services.py: wireless
charges of the cycle grouped by user and charge type with summed amounts,
users numbered by insertion position (the autoincrement User.id). -/
def detailAgg (db : DB) (cycle : String) : List DetailRow :=
  db.users.enum.flatMap (fun iu =>
    db.chargeTypes.filterMap (fun ty =>
      let cs := db.charges.filter (fun c => c.userName == iu.2.1 &&
        c.userNumber == iu.2.2 && c.cycle == cycle && c.chargeType == ty.1 &&
        ty.2.2 == "wireless")
      if cs.isEmpty then none
      else some ⟨iu.1, iu.2.1, iu.2.2, ty.2.1, (cs.map (fun c => c.amount)).sum⟩))

/-- Admissible output of the detail query: the query carries
order_by(User.id) and nothing else, so any permutation of the aggregation
that is weakly sorted on userId is a possible output. -/
@[reducible] def detailAdmissible (db : DB) (cycle : String)
    (out : List DetailRow) : Prop :=
  out.Perm (detailAgg db cycle) ∧ out.Sorted (fun r1 r2 => r1.userId ≤ r2.userId)

/-- Claim C9, counterexample: with two users of the same cycle stored in
order Alice then Bob, the reversed output is an admissible result of the
summary query (its Perm condition holds) yet is not ordered by user
insertion order, so the summary report is not guaranteed to emit rows in
insertion order. -/
theorem summary_not_ordered_counterexample :
    summaryAdmissible
      [⟨0, "Alice", "111", 1, 10⟩, ⟨1, "Bob", "222", 1, 20⟩] 1
      [⟨1, "Bob", "222", 1, 20⟩, ⟨0, "Alice", "111", 1, 10⟩] ∧
    ¬ List.Sorted (fun r1 r2 => r1.userId ≤ r2.userId)
      [(⟨1, "Bob", "222", 1, 20⟩ : SummaryRow), ⟨0, "Alice", "111", 1, 10⟩] := by
  with_unfolding_all decide

/-- Claim C9, amended: the detail report does order its rows by User.id,
the insertion order, and therefore all rows of one user are consecutive in
every admissible output: a row of another user never sits between two rows
of the same user. -/
theorem detail_rows_grouped_by_user (db : DB) (cycle : String) (out : List DetailRow)
    (h : detailAdmissible db cycle out) :
    ∀ (i j k : Fin out.length), i < j → j < k →
      (out.get i).userId = (out.get k).userId →
      (out.get j).userId = (out.get i).userId := by
  obtain ⟨_, hsort⟩ := h
  intro i j k hij hjk hik
  have h1 : (out.get i).userId ≤ (out.get j).userId :=
    List.pairwise_iff_get.mp hsort i j hij
  have h2 : (out.get j).userId ≤ (out.get k).userId :=
    List.pairwise_iff_get.mp hsort j k hjk
  omega

/-- Witness for detail_rows_grouped_by_user on a store with one user and
three wireless charge types, instantiated at the three row positions. -/
theorem detail_rows_grouped_by_user_witness :
    ([(⟨0, "Alice", "111", "Plan", 10⟩ : DetailRow), ⟨0, "Alice", "111", "Fees", 5⟩,
        ⟨0, "Alice", "111", "Tax", 1⟩].get
      (⟨1, by decide⟩ : Fin ([(⟨0, "Alice", "111", "Plan", 10⟩ : DetailRow),
        ⟨0, "Alice", "111", "Fees", 5⟩, ⟨0, "Alice", "111", "Tax", 1⟩].length))).userId
      = ([(⟨0, "Alice", "111", "Plan", 10⟩ : DetailRow), ⟨0, "Alice", "111", "Fees", 5⟩,
          ⟨0, "Alice", "111", "Tax", 1⟩].get
        (⟨0, by decide⟩ : Fin ([(⟨0, "Alice", "111", "Plan", 10⟩ : DetailRow),
          ⟨0, "Alice", "111", "Fees", 5⟩, ⟨0, "Alice", "111", "Tax", 1⟩].length))).userId :=
  detail_rows_grouped_by_user
    ⟨[("Alice", "111")], [("wireless", "Wireless")],
      [("plan", "Plan", "wireless"), ("fees", "Fees", "wireless"),
        ("tax", "Tax", "wireless")], ["2016-09"],
      [⟨"Alice", "111", "plan", "2016-09", 10⟩, ⟨"Alice", "111", "fees", "2016-09", 5⟩,
        ⟨"Alice", "111", "tax", "2016-09", 1⟩]⟩
    "2016-09"
    [⟨0, "Alice", "111", "Plan", 10⟩, ⟨0, "Alice", "111", "Fees", 5⟩,
      ⟨0, "Alice", "111", "Tax", 1⟩]
    (by constructor
        · with_unfolding_all decide
        · with_unfolding_all decide)
    ⟨0, by decide⟩ ⟨1, by decide⟩ ⟨2, by decide⟩
    (by decide) (by decide) (by decide)

/-- Row of the notification query, identical in shape to the detail
query. -/
structure NotifyRow where
  number : String
  name : String
  chargeType : String
  total : Amt
deriving DecidableEq, Repr

/-- Loop state of notify_users_monthly_details: the current_user_num local
(none models the initial integer sentinel, distinct from every number
string), the running per-user total, the messages dictionary, and the
message accumulator. -/
structure NotifySt where
  currentNum : Option String
  currentTotal : Amt
  messages : List (Option String × String)
  message : String
deriving Repr

/-- Header line of a user message. -/
def msgHeader (name number bcName : String) : String :=
  "Hi " ++ name ++ " (" ++ number ++ "),\nYour ATT Wireless Charges for " ++
    bcName ++ ":\n"

/-- Detail line of a user message (numeric formatting abstracted). -/
def msgLine (chargeType : String) (total : Amt) : String :=
  "  - " ++ chargeType ++ " " ++ toString total.num ++ "\n"

/-- Total line of a user message (numeric formatting abstracted). -/
def msgTotal (total : Amt) : String :=
  "  - Total " ++ toString total.num ++ "\n"

/-- Python dictionary assignment: replace the value under an existing key,
else append the pair. -/
def setKey (mp : List (Option String × String)) (k : Option String) (v : String) :
    List (Option String × String) :=
  if mp.any (fun pr => pr.1 == k) then
    mp.map (fun pr => if pr.1 == k then (k, v) else pr)
  else mp ++ [(k, v)]

/-- One iteration of the notification loop.  The source tests
user.number != current_user_num first; on a boundary it stores the
accumulated message (with its Total line) under the OLD current_user_num
provided the old total was nonzero, then resets; in both paths the row
line is appended and the row total accumulated. -/
def notifyStep (bcName : String) (st : NotifySt) (r : NotifyRow) : NotifySt :=
  if some r.number = st.currentNum then
    { st with message := st.message ++ msgLine r.chargeType r.total
            , currentTotal := st.currentTotal + r.total }
  else
    { currentNum := some r.number
    , currentTotal := 0 + r.total
    , messages :=
        if st.currentTotal ≠ 0 then
          setKey st.messages st.currentNum (st.message ++ msgTotal st.currentTotal)
        else st.messages
    , message := msgHeader r.name r.number bcName ++ msgLine r.chargeType r.total }

/-- Initial state of the notification loop. -/
def notifyInit : NotifySt := ⟨none, 0, [], ""⟩

/-- The notification loop over the query rows.  After the loop the source
appends a Total line to the message accumulator but never stores it in
messages; the send loop then iterates messages only. -/
def notifyRun (bcName : String) (rows : List NotifyRow) : NotifySt :=
  rows.foldl (notifyStep bcName) notifyInit

/-- Lookup of a message under a key of the dictionary. -/
def lookupKey (mp : List (Option String × String)) (k : Option String) : Option String :=
  (mp.find? (fun pr => pr.1 == k)).map (fun pr => pr.2)

/-- Absence of a key, spelled pointwise. -/
theorem lookupKey_none_iff (mp : List (Option String × String)) (k0 : Option String) :
    lookupKey mp k0 = none ↔ ∀ pr ∈ mp, (pr.1 == k0) = false := by
  unfold lookupKey
  simp [List.find?_eq_none]

/-- Setting one key never makes a different absent key present. -/
theorem lookupKey_setKey_none {mp : List (Option String × String)}
    {k k0 : Option String} {v : String}
    (hk : (k == k0) = false) (h0 : lookupKey mp k0 = none) :
    lookupKey (setKey mp k v) k0 = none := by
  rw [lookupKey_none_iff] at h0 ⊢
  unfold setKey
  split
  · intro pr hpr
    rcases List.mem_map.mp hpr with ⟨pr0, hpr0, heq⟩
    by_cases hp : (pr0.1 == k) = true
    · rw [if_pos hp] at heq
      rw [← heq]
      exact hk
    · rw [if_neg hp] at heq
      rw [← heq]
      exact h0 pr0 hpr0
  · intro pr hpr
    rcases List.mem_append.mp hpr with h | h
    · exact h0 pr h
    · rw [List.mem_singleton.mp h]
      exact hk

/-- Step equation of the loop on a row of the current user. -/
theorem notifyStep_stay (bcName : String) (st : NotifySt) (r : NotifyRow)
    (h : some r.number = st.currentNum) :
    notifyStep bcName st r
      = { st with message := st.message ++ msgLine r.chargeType r.total
                , currentTotal := st.currentTotal + r.total } := by
  unfold notifyStep
  rw [if_pos h]

/-- Step equation of the loop at a user boundary. -/
theorem notifyStep_boundary (bcName : String) (st : NotifySt) (r : NotifyRow)
    (h : ¬ some r.number = st.currentNum) :
    notifyStep bcName st r
      = { currentNum := some r.number
        , currentTotal := 0 + r.total
        , messages :=
            if st.currentTotal ≠ 0 then
              setKey st.messages st.currentNum (st.message ++ msgTotal st.currentTotal)
            else st.messages
        , message := msgHeader r.name r.number bcName ++
            msgLine r.chargeType r.total } := by
  unfold notifyStep
  rw [if_neg h]

/-- Over rows that never carry number n, the loop never turns n into the
current number and never stores a message under n. -/
theorem notify_fold_pre (bcName : String) (n : String) :
    ∀ (rows : List NotifyRow) (st : NotifySt),
      (∀ r ∈ rows, r.number ≠ n) →
      st.currentNum ≠ some n →
      lookupKey st.messages (some n) = none →
      (rows.foldl (notifyStep bcName) st).currentNum ≠ some n ∧
        lookupKey (rows.foldl (notifyStep bcName) st).messages (some n) = none := by
  intro rows
  induction rows with
  | nil => intro st _ h1 h2; exact ⟨h1, h2⟩
  | cons r rest ih =>
      intro st hall h1 h2
      rw [List.foldl_cons]
      apply ih _ (fun x hx => hall x (by simp [hx]))
      · unfold notifyStep
        split
        · exact h1
        · simp only
          intro hcon
          exact hall r (by simp) (by simpa using hcon)
      · unfold notifyStep
        split
        · exact h2
        · simp only
          split
          · exact lookupKey_setKey_none
              (by simpa using fun hcon => h1 hcon) h2
          · exact h2

/-- Over rows that all carry number n, starting with n current and no
stored message under n, the loop keeps n current, never stores under n,
and accumulates exactly the row totals. -/
theorem notify_fold_grp (bcName : String) (n : String) :
    ∀ (rows : List NotifyRow) (st : NotifySt),
      (∀ r ∈ rows, r.number = n) →
      st.currentNum = some n →
      lookupKey st.messages (some n) = none →
      (rows.foldl (notifyStep bcName) st).currentNum = some n ∧
        lookupKey (rows.foldl (notifyStep bcName) st).messages (some n) = none ∧
        (rows.foldl (notifyStep bcName) st).currentTotal
          = st.currentTotal + (rows.map (fun r => r.total)).sum := by
  intro rows
  induction rows with
  | nil => intro st _ h1 h2; exact ⟨h1, h2, by simp⟩
  | cons r rest ih =>
      intro st hall h1 h2
      rw [List.foldl_cons]
      have hr : r.number = n := hall r (by simp)
      have hb := notifyStep_stay bcName st r (by rw [hr, h1])
      rw [hb]
      have hres := ih { st with message := st.message ++ msgLine r.chargeType r.total
                              , currentTotal := st.currentTotal + r.total }
        (fun x hx => hall x (by simp [hx])) h1 h2
      refine ⟨hres.1, hres.2.1, ?_⟩
      rw [hres.2.2]
      simp only
      rw [List.map_cons, List.sum_cons, add_assoc]

/-- Claim C10: when the query rows end with the block of one user (number
n, absent from the earlier rows), the outgoing messages dictionary of the
loop never contains n; the loop state nevertheless ends with n current and
with that user total fully accumulated, so the last user in insertion
order is never present in the mapping handed to the confirmation and send
loop even though the message body and total were fully assembled. -/
theorem last_user_never_in_messages (bcName : String) (n : String)
    (pre grp : List NotifyRow) (hg : grp ≠ [])
    (hsame : ∀ r ∈ grp, r.number = n) (hpre : ∀ r ∈ pre, r.number ≠ n) :
    lookupKey (notifyRun bcName (pre ++ grp)).messages (some n) = none ∧
    (notifyRun bcName (pre ++ grp)).currentNum = some n ∧
    (notifyRun bcName (pre ++ grp)).currentTotal = (grp.map (fun r => r.total)).sum := by
  unfold notifyRun
  rw [List.foldl_append]
  have hpre2 := notify_fold_pre bcName n pre notifyInit hpre (by simp [notifyInit])
    (by rfl)
  cases grp with
  | nil => exact absurd rfl hg
  | cons r grs =>
      rw [List.foldl_cons]
      have hr : r.number = n := hsame r (by simp)
      have hb := notifyStep_boundary bcName (pre.foldl (notifyStep bcName) notifyInit) r
        (fun hcon => hpre2.1 (by rw [← hcon, hr]))
      rw [hb]
      have hlk2 : lookupKey
          (if (pre.foldl (notifyStep bcName) notifyInit).currentTotal ≠ 0 then
            setKey (pre.foldl (notifyStep bcName) notifyInit).messages
              (pre.foldl (notifyStep bcName) notifyInit).currentNum
              ((pre.foldl (notifyStep bcName) notifyInit).message ++
                msgTotal (pre.foldl (notifyStep bcName) notifyInit).currentTotal)
          else (pre.foldl (notifyStep bcName) notifyInit).messages) (some n) = none := by
        split
        · exact lookupKey_setKey_none
            (by simpa using fun hcon => hpre2.1 hcon) hpre2.2
        · exact hpre2.2
      have hmain := notify_fold_grp bcName n grs
        { currentNum := some r.number
        , currentTotal := 0 + r.total
        , messages :=
            if (pre.foldl (notifyStep bcName) notifyInit).currentTotal ≠ 0 then
              setKey (pre.foldl (notifyStep bcName) notifyInit).messages
                (pre.foldl (notifyStep bcName) notifyInit).currentNum
                ((pre.foldl (notifyStep bcName) notifyInit).message ++
                  msgTotal (pre.foldl (notifyStep bcName) notifyInit).currentTotal)
            else (pre.foldl (notifyStep bcName) notifyInit).messages
        , message := msgHeader r.name r.number bcName ++ msgLine r.chargeType r.total }
        (fun x hx => hsame x (by simp [hx])) (by simp [hr]) hlk2
      refine ⟨hmain.2.1, hmain.1, ?_⟩
      rw [hmain.2.2]
      simp

/-- Witness for last_user_never_in_messages: Alice then Bob; the message
of Bob, the last user, is absent from the dictionary while the state ends
on Bob with total 20. -/
theorem last_user_never_in_messages_witness :
    lookupKey (notifyRun "2016-08"
        ([⟨"111", "Alice", "plan", 10⟩] ++ [⟨"222", "Bob", "plan", 20⟩])).messages
        (some "222") = none ∧
    (notifyRun "2016-08"
        ([⟨"111", "Alice", "plan", 10⟩] ++ [⟨"222", "Bob", "plan", 20⟩])).currentNum
        = some "222" ∧
    (notifyRun "2016-08"
        ([⟨"111", "Alice", "plan", 10⟩] ++ [⟨"222", "Bob", "plan", 20⟩])).currentTotal
        = ([(⟨"222", "Bob", "plan", 20⟩ : NotifyRow)].map (fun r => r.total)).sum :=
  last_user_never_in_messages "2016-08" "222"
    [⟨"111", "Alice", "plan", 10⟩] [⟨"222", "Bob", "plan", 20⟩]
    (by decide) (by decide) (by decide)

end AttBill
